import Mathlib

/-!
# Distributed sorting: regular sampling (`psrs.c`) and hypercube quicksort (`quicksort_hypercube.c`)

Both programs are SPMD: `size` workers run the same function and meet at MPI collectives.
The embedding keeps one buffer per rank (`List (List Int)`, indexed by rank) and turns each
collective into the data movement it performs:

* `MPI_Scatter`   : rank `r` receives the `r`-th block of `local_size` keys;
* `MPI_Gather`    : rank 0 receives the workers' arrays one after the other, in rank order;
* `MPI_Bcast`     : every rank uses the value computed by rank 0;
* `MPI_Alltoallv` : rank `j` receives, in rank order, the segment each rank `i` addressed to it;
* `MPI_Sendrecv`  : a rank receives what its `source` sent;
* `MPI_Cart_create` / `MPI_Cart_coords` / `MPI_Cart_shift` on a periodic `2 x ... x 2` grid:
  row-major coordinates, and the neighbour along dimension `i` is the rank whose coordinate `i`
  is flipped.

Keys are C `int`s, embedded as `Int`; the only arithmetic on keys is the subtraction inside
`compare`, reduced to 32 bits by `wrap32`.  Index arithmetic is on `Nat`.

Two kinds of memory access have no value fixed by the program text.  A read of memory the
program never wrote (an entry of `sample` the loop skips, an index past the end of
`local_data`) yields a value drawn from `Unspec`, over which every theorem quantifies.  A write
past an allocation leaves the C program without defined behaviour: the receive buffer of the
hypercube exchange has room for `recv_capacity` ints, `hypercube_round` is the data movement
of a round whose receives all fit (`round_fits`), and `hypercube_rounds_checked` is the loop
with that allocation taken into account, with no state once a receive does not fit.
-/

namespace PSort

/-! ## Shared pieces: `compare` and the library sort -/

/-- The value a 32-bit `int` holds after the mathematical result `x` is stored in it
(two's complement wrap-around). -/
def wrap32 (x : Int) : Int := (x + 2147483648) % 4294967296 - 2147483648

/-- The `compare` function of both files: `return (*(int *)a - *(int *)b);`, an `int`
subtraction. -/
def compare (a b : Int) : Int := wrap32 (a - b)

/-- The C library call `qsort(base, n, sizeof(int), cmp)`.  The library routine is not part of
the repository; it is embedded as a comparison sort that learns about the keys only through the
sign of `cmp`: an insertion sort that puts `a` before `b` when `cmp a b <= 0`. -/
def qsort (cmp : Int → Int → Int) (base : List Int) : List Int :=
  base.insertionSort (fun a b => cmp a b ≤ 0)

/-- Values of memory cells that are read without having been written by the program. -/
structure Unspec where
  /-- The value rank `rank` finds at `local_data[idx]` when `idx` is past the end. -/
  beyond : Nat → Nat → Int
  /-- The value rank `rank` finds in `sample[size - 1]`, which no statement assigns. -/
  uninit : Nat → Int

/-! ## `psrs.c` -/

/-- The subscript of the sampling loop: `(i * n_local) / size * size`. -/
def sample_index (i n_local size : Nat) : Nat := (i * n_local) / size * size

/-- The read `local_data[idx]` on rank `rank`. -/
def read_local (u : Unspec) (rank : Nat) (local_data : List Int) (idx : Nat) : Int :=
  if h : idx < local_data.length then local_data[idx] else u.beyond rank idx

/-- The entries the sampling loop writes: `for (i = 0; i < size - 1; i++) sample[i] = ...`. -/
def sample_written (u : Unspec) (size rank : Nat) (local_data : List Int) : List Int :=
  (List.range (size - 1)).map
    (fun i => read_local u rank local_data (sample_index i local_data.length size))

/-- The `size` entries of `sample` that `MPI_Gather(sample, size, ...)` sends: the entries the
loop wrote, followed by `sample[size - 1]`. -/
def sample (u : Unspec) (size rank : Nat) (local_data : List Int) : List Int :=
  sample_written u size rank local_data ++ [u.uninit rank]

/-- The array `all_samples` on rank 0 after the gather. -/
def all_samples (u : Unspec) (size : Nat) (sorted_locals : Nat → List Int) : List Int :=
  ((List.range size).map (fun r => sample u size r (sorted_locals r))).flatten

/-- The subscript of the pivot loop: `(i + 1) * size + size / 2 - 1`. -/
def pivot_offset (i size : Nat) : Nat := (i + 1) * size + size / 2 - 1

/-- Step 3 on rank 0: sort the gathered samples and pick `size - 1` of them. -/
def pivots (size : Nat) (gathered : List Int) : List Int :=
  (List.range (size - 1)).map (fun i => (qsort compare gathered).getD (pivot_offset i size) 0)

/-- The scan `while (bucket < size - 1 && x > pivots[bucket]) bucket++;`, with `fuel`
iterations at most, started from `bucket`. -/
def bucket_scan (size : Nat) (pv : List Int) (x : Int) : Nat → Nat → Nat
  | 0, bucket => bucket
  | fuel + 1, bucket =>
    if bucket < size - 1 ∧ x > pv.getD bucket 0 then bucket_scan size pv x fuel (bucket + 1)
    else bucket

/-- The bucket of key `x`: the scan started at `bucket = 0`. -/
def bucket_of (size : Nat) (pv : List Int) (x : Int) : Nat :=
  bucket_scan size pv x (size - 1) 0

/-- The counting loop: `bucket_sizes[b]` is the number of local keys whose scan stops at `b`. -/
def bucket_sizes (size : Nat) (pv : List Int) (local_data : List Int) : List Nat :=
  (List.range size).map (fun b => local_data.countP (fun x => bucket_of size pv x = b))

/-- The distribution loop: `buckets[b]` receives, in order, the local keys whose scan stops
at `b`. -/
def buckets (size : Nat) (pv : List Int) (local_data : List Int) : List (List Int) :=
  (List.range size).map (fun b => local_data.filter (fun x => bucket_of size pv x = b))

/-- The displacement loop `displ[i] = offset; offset += counts[i];`. -/
def displ_loop : Nat → List Nat → List Nat
  | _, [] => []
  | offset, c :: cs => offset :: displ_loop (offset + c) cs

/-- The array `send_displ`. -/
def send_displ (size : Nat) (pv : List Int) (local_data : List Int) : List Nat :=
  displ_loop 0 (bucket_sizes size pv local_data)

/-- The array `send_buffer`: bucket after bucket, copied at the running offset. -/
def send_buffer (size : Nat) (pv : List Int) (local_data : List Int) : List Int :=
  (buckets size pv local_data).flatten

/-- The `count` cells of `buf` starting at `displ`. -/
def segment (buf : List Int) (displ count : Nat) : List Int := (buf.drop displ).take count

/-- What rank `j` holds in `recv_buffer` after `MPI_Alltoallv`: for each rank `i` in order, the
segment of `i`'s send buffer at `send_displ[j]` of `bucket_sizes[j]` cells.  (`recv_counts` on
`j` is column `j` of the senders' `bucket_sizes` and `recv_displ` its running sum, so the
segments are laid end to end.) -/
def recv_buffer (size : Nat) (pv : List Int) (sorted_locals : Nat → List Int) (j : Nat) :
    List Int :=
  ((List.range size).map (fun i =>
    segment (send_buffer size pv (sorted_locals i))
      ((send_displ size pv (sorted_locals i)).getD j 0)
      ((bucket_sizes size pv (sorted_locals i)).getD j 0))).flatten

/-- The array `recv_counts` on rank `j` after `MPI_Alltoall(bucket_sizes, 1, ...)`: entry `i` is
entry `j` of rank `i`'s `bucket_sizes`. -/
def recv_counts (size : Nat) (pv : List Int) (sorted_locals : Nat → List Int) (j : Nat) :
    List Nat :=
  (List.range size).map (fun i => (bucket_sizes size pv (sorted_locals i)).getD j 0)

/-- The array `recv_displ` on rank `j`. -/
def recv_displ (size : Nat) (pv : List Int) (sorted_locals : Nat → List Int) (j : Nat) :
    List Nat :=
  displ_loop 0 (recv_counts size pv sorted_locals j)

/-- The loop `total_send += bucket_sizes[i]`. -/
def total_send (size : Nat) (pv : List Int) (local_data : List Int) : Nat :=
  (bucket_sizes size pv local_data).sum

/-- The loop `total_recv += recv_counts[i]`: the length `recv_buffer` is allocated with. -/
def total_recv (size : Nat) (pv : List Int) (sorted_locals : Nat → List Int) (j : Nat) : Nat :=
  (recv_counts size pv sorted_locals j).sum

/-- The function `quicksort_sampling`, run by all `size` ranks: entry `r` of the argument is
rank `r`'s `local_data`, entry `r` of the result the buffer rank `r` returns. -/
def quicksort_sampling (u : Unspec) (size : Nat) (locals : List (List Int)) :
    List (List Int) :=
  let sorted_locals := fun r => qsort compare (locals.getD r [])
  let pv := pivots size (all_samples u size sorted_locals)
  (List.range size).map (fun j => qsort compare (recv_buffer size pv sorted_locals j))

/-- The call `MPI_Scatter(global_data, local_size, ...)` with `local_size = n / size`. -/
def scatter (size : Nat) (global_data : List Int) : List (List Int) :=
  (List.range size).map (fun r =>
    (global_data.drop (r * (global_data.length / size))).take (global_data.length / size))

/-- What a run of `main` amounts to: the exit status and, when the sort ran, the buffers the
ranks ended with. -/
structure Outcome where
  status : Nat
  sorted_data : Option (List (List Int))

/-- The function `main` of `psrs.c` on `size` ranks; `args` are the command-line keys after
`atoi`. -/
def psrs_main (u : Unspec) (size : Nat) (args : List Int) : Outcome :=
  if args.length % size ≠ 0 then ⟨1, none⟩
  else ⟨0, some (quicksort_sampling u size (scatter size args))⟩

/-! ## `quicksort_hypercube.c` -/

/-- Coordinate `i` of `rank` as `MPI_Cart_coords` gives it on the `2 x ... x 2` grid of
`dimension` axes (row-major rank order, so axis 0 is the most significant bit). -/
def coord (dimension rank i : Nat) : Nat := (rank / 2 ^ (dimension - 1 - i)) % 2

/-- The rank `MPI_Cart_shift(hypercube_comm, i, 1, &source, &dest)` returns, as `source` and as
`dest` alike: every axis is periodic with extent 2, so one step either way flips
coordinate `i`. -/
def neighbour (dimension rank i : Nat) : Nat :=
  if coord dimension rank i = 0 then rank + 2 ^ (dimension - 1 - i)
  else rank - 2 ^ (dimension - 1 - i)

/-- The expression `(result_size > 0) ? result_data[0] : 0`. -/
def local_sample (result_data : List Int) : Int :=
  match result_data with
  | [] => 0
  | x :: _ => x

/-- The pivot of a round: rank 0 sorts the `size` gathered samples and takes entry
`size / 2`. -/
def round_pivot (size : Nat) (bufs : Nat → List Int) : Int :=
  (qsort compare ((List.range size).map (fun r => local_sample (bufs r)))).getD (size / 2) 0

/-- The array `small_arr`: the keys with `result_data[j] <= pivot`, in order. -/
def small_arr (pivot : Int) (result_data : List Int) : List Int :=
  result_data.filter (fun x => x ≤ pivot)

/-- The array `larger_arr`: the other keys, in order. -/
def larger_arr (pivot : Int) (result_data : List Int) : List Int :=
  result_data.filter (fun x => ¬ x ≤ pivot)

/-- The buffer `send_buf` of a rank in round `i`: `larger_arr` when its bit is 0, `small_arr`
otherwise. -/
def send_buf (dimension i : Nat) (pivot : Int) (rank : Nat) (result_data : List Int) :
    List Int :=
  if coord dimension rank i = 0 then larger_arr pivot result_data
  else small_arr pivot result_data

/-- The rebuilt `result_data` of a rank in round `i`: the part it kept, then `recv_buf`. -/
def rebuild (dimension i : Nat) (pivot : Int) (rank : Nat) (result_data recv_buf : List Int) :
    List Int :=
  if coord dimension rank i = 0 then small_arr pivot result_data ++ recv_buf
  else larger_arr pivot result_data ++ recv_buf

/-- The number of ints `recv_buf = malloc(sizeof(int) * (*local_size * 2))` has room for;
`*local_size` is the size the rank was given, it is only updated after the loop. -/
def recv_capacity (local_size : Nat) : Nat := local_size * 2

/-- The count `recv_size` a rank learns in round `i`: the `send_size` of its neighbour. -/
def recv_size (dimension size i : Nat) (bufs : List (List Int)) (rank : Nat) : Nat :=
  (send_buf dimension i (round_pivot size (fun q => bufs.getD q []))
    (neighbour dimension rank i) (bufs.getD (neighbour dimension rank i) [])).length

/-- One iteration `i` of the loop of `hypercube_quicksort`, on all ranks, when every rank's
`recv_size` is within the room of its `recv_buf` (`round_fits`); `recv_buf` of a rank then
holds the `send_buf` of its neighbour. -/
def hypercube_round (dimension size i : Nat) (bufs : List (List Int)) : List (List Int) :=
  (List.range size).map (fun r =>
    rebuild dimension i (round_pivot size (fun q => bufs.getD q [])) r (bufs.getD r [])
      (send_buf dimension i (round_pivot size (fun q => bufs.getD q []))
        (neighbour dimension r i) (bufs.getD (neighbour dimension r i) [])))

/-- The buffers after the first `k` iterations (`i = 0, ..., k - 1`) of the loop, as long as
every receive so far fitted its buffer (`hypercube_rounds_checked` keeps track of that). -/
def hypercube_rounds (dimension size : Nat) : Nat → List (List Int) → List (List Int)
  | 0, bufs => bufs
  | k + 1, bufs => hypercube_round dimension size k (hypercube_rounds dimension size k bufs)

/-- The function `hypercube_quicksort`, run by all `size` ranks: `dimension` rounds, then the
final local sort; the result of a run in which every receive fitted its buffer
(`hypercube_quicksort_checked`). -/
def hypercube_quicksort (dimension size : Nat) (locals : List (List Int)) : List (List Int) :=
  (List.range size).map (fun r =>
    qsort compare ((hypercube_rounds dimension size dimension locals).getD r []))

/-- Whether in round `i` every rank's `recv_size` is within the room of the `recv_buf` it
allocated: `*local_size * 2` ints, `*local_size` being the length of the buffer the rank was
given (entry `r` of `locals`). -/
def round_fits (dimension size i : Nat) (locals bufs : List (List Int)) : Bool :=
  (List.range size).all (fun r =>
    decide (recv_size dimension size i bufs r ≤ recv_capacity ((locals.getD r []).length)))

/-- The loop of `hypercube_quicksort` with the allocation of `recv_buf` taken into account:
the buffers after the first `k` iterations, and `none` from the first iteration on in which
some `MPI_Sendrecv` is handed more ints than `recv_buf` has room for. -/
def hypercube_rounds_checked (dimension size : Nat) (locals : List (List Int)) :
    Nat → Option (List (List Int))
  | 0 => some locals
  | k + 1 =>
    match hypercube_rounds_checked dimension size locals k with
    | none => none
    | some bufs =>
      if round_fits dimension size k locals bufs then some (hypercube_round dimension size k bufs)
      else none

/-- The function `hypercube_quicksort` with the allocation of `recv_buf` taken into account:
the buffers the ranks return, and `none` when a receive of some round does not fit. -/
def hypercube_quicksort_checked (dimension size : Nat) (locals : List (List Int)) :
    Option (List (List Int)) :=
  (hypercube_rounds_checked dimension size locals dimension).map
    (fun bufs => (List.range size).map (fun r => qsort compare (bufs.getD r [])))

/-- Keys on which the subtraction inside `compare` never leaves the 32-bit range. -/
def KeysSafe (l : List Int) : Prop :=
  ∀ a ∈ l, ∀ b ∈ l, -2147483648 ≤ a - b ∧ a - b ≤ 2147483647

instance (l : List Int) : Decidable (KeysSafe l) := by
  unfold KeysSafe; infer_instance

/-- The non-decreasing sort of a key sequence, as the specification means it. -/
def sorted_keys (l : List Int) : List Int := l.insertionSort (fun a b => a ≤ b)

/-- The part of its buffer a rank keeps in round `i`. -/
def kept (dimension i : Nat) (pivot : Int) (rank : Nat) (result_data : List Int) : List Int :=
  if coord dimension rank i = 0 then small_arr pivot result_data
  else larger_arr pivot result_data

/-- The pivot broadcast in round `k` of a run started from `locals`. -/
def pivot_of_round (dimension size k : Nat) (locals : List (List Int)) : Int :=
  round_pivot size (fun q => (hypercube_rounds dimension size k locals).getD q [])

/-- The multiset union of the buffers the ranks hold. -/
def multiset_union (bufs : List (List Int)) : Multiset Int :=
  (bufs.map (fun b : List Int => Multiset.ofList b)).sum

/-- The total of the ranks' `result_size` (or `local_size`) values. -/
def total_size (bufs : List (List Int)) : Nat := (bufs.map List.length).sum

/-- A valid input for eight ranks, 32 keys, four per rank: in the round with `i = 2` rank 3 is
handed 14 ints where its `recv_buf` has room for 8. -/
def overrun_keys : List Int :=
  [1, 50, 50, 50, 1, 50, 50, 50, 50, 1, 50, 50, 50, 1, 50, 50,
    100, 50, 50, 50, 100, 50, 50, 50, 100, 50, 50, 50, 100, 50, 50, 50]

/-! ## The library sort and the comparator -/

theorem qsort_perm (cmp : Int → Int → Int) (l : List Int) : (qsort cmp l).Perm l :=
  List.perm_insertionSort _ l

theorem mem_qsort (cmp : Int → Int → Int) (l : List Int) (x : Int) :
    x ∈ qsort cmp l ↔ x ∈ l :=
  (qsort_perm cmp l).mem_iff

theorem qsort_coe (cmp : Int → Int → Int) (l : List Int) :
    ((qsort cmp l : List Int) : Multiset Int) = (l : Multiset Int) :=
  Multiset.coe_eq_coe.mpr (qsort_perm cmp l)

theorem wrap32_of_range (x : Int) (h : -2147483648 ≤ x ∧ x ≤ 2147483647) : wrap32 x = x := by
  unfold wrap32
  omega

theorem compare_le_zero_iff (a b : Int)
    (h : -2147483648 ≤ a - b ∧ a - b ≤ 2147483647) : compare a b ≤ 0 ↔ a ≤ b := by
  unfold compare
  rw [wrap32_of_range _ h]
  omega

theorem orderedInsert_congr (r s : Int → Int → Prop) [DecidableRel r] [DecidableRel s]
    (a : Int) (l : List Int) (h : ∀ b ∈ l, (r a b ↔ s a b)) :
    l.orderedInsert r a = l.orderedInsert s a := by
  induction l with
  | nil => rfl
  | cons b t ih =>
    have hb : r a b ↔ s a b := h b (List.mem_cons_self _ _)
    have ht : ∀ c ∈ t, (r a c ↔ s a c) := fun c hc => h c (List.mem_cons_of_mem _ hc)
    by_cases hr : r a b
    · simp [List.orderedInsert, hr, hb.mp hr]
    · have hs : ¬ s a b := fun hs => hr (hb.mpr hs)
      simp [List.orderedInsert, hr, hs, ih ht]

theorem insertionSort_congr (r s : Int → Int → Prop) [DecidableRel r] [DecidableRel s]
    (l : List Int) (h : ∀ a ∈ l, ∀ b ∈ l, (r a b ↔ s a b)) :
    l.insertionSort r = l.insertionSort s := by
  induction l with
  | nil => rfl
  | cons a t ih =>
    have ht : ∀ x ∈ t, ∀ y ∈ t, (r x y ↔ s x y) :=
      fun x hx y hy => h x (List.mem_cons_of_mem _ hx) y (List.mem_cons_of_mem _ hy)
    simp only [List.insertionSort]
    rw [ih ht]
    apply orderedInsert_congr
    intro b hb
    have hb' : b ∈ t := (List.mem_insertionSort s).mp hb
    exact h a (List.mem_cons_self _ _) b (List.mem_cons_of_mem _ hb')

theorem qsort_compare_eq (l : List Int) (h : KeysSafe l) :
    qsort compare l = sorted_keys l := by
  unfold qsort sorted_keys
  apply insertionSort_congr
  intro a ha b hb
  exact compare_le_zero_iff a b (h a ha b hb)

theorem qsort_sorted (l : List Int) (h : KeysSafe l) :
    (qsort compare l).Sorted (fun a b => a ≤ b) := by
  rw [qsort_compare_eq l h]
  exact List.sorted_insertionSort _ l

/-! ## The bucket scan -/

theorem le_bucket_scan (size : Nat) (pv : List Int) (x : Int) (fuel bucket : Nat) :
    bucket ≤ bucket_scan size pv x fuel bucket := by
  induction fuel generalizing bucket with
  | zero => simp [bucket_scan]
  | succ n ih =>
    unfold bucket_scan
    split
    · exact Nat.le_trans (Nat.le_succ bucket) (ih (bucket + 1))
    · exact Nat.le_refl bucket

theorem bucket_scan_le (size : Nat) (pv : List Int) (x : Int) (fuel bucket : Nat)
    (h : bucket ≤ size - 1) : bucket_scan size pv x fuel bucket ≤ size - 1 := by
  induction fuel generalizing bucket with
  | zero => simpa [bucket_scan] using h
  | succ n ih =>
    unfold bucket_scan
    split
    · rename_i hc
      exact ih (bucket + 1) (by omega)
    · exact h

/-- With `size - 1 - bucket` iterations or more the scan has left the loop: its condition is
false at the bucket it returns. -/
theorem bucket_scan_exit (size : Nat) (pv : List Int) (x : Int) (fuel bucket : Nat)
    (h : size - 1 - bucket ≤ fuel) :
    ¬ (bucket_scan size pv x fuel bucket < size - 1 ∧
        x > pv.getD (bucket_scan size pv x fuel bucket) 0) := by
  induction fuel generalizing bucket with
  | zero =>
    simp only [bucket_scan]
    intro hc
    omega
  | succ n ih =>
    unfold bucket_scan
    split
    · exact ih (bucket + 1) (by omega)
    · assumption

theorem bucket_scan_mono (size : Nat) (pv : List Int) (x y : Int) (hxy : x ≤ y)
    (fuel bucket : Nat) :
    bucket_scan size pv x fuel bucket ≤ bucket_scan size pv y fuel bucket := by
  induction fuel generalizing bucket with
  | zero => simp [bucket_scan]
  | succ n ih =>
    by_cases hx : bucket < size - 1 ∧ x > pv.getD bucket 0
    · have hy : bucket < size - 1 ∧ y > pv.getD bucket 0 := ⟨hx.1, by omega⟩
      simp only [bucket_scan, hx, hy, and_self, if_true]
      exact ih (bucket + 1)
    · have e : bucket_scan size pv x (n + 1) bucket = bucket := by
        simp only [bucket_scan, hx, if_false]
      rw [e]
      exact le_bucket_scan size pv y (n + 1) bucket

theorem bucket_of_mono (size : Nat) (pv : List Int) (x y : Int) (hxy : x ≤ y) :
    bucket_of size pv x ≤ bucket_of size pv y :=
  bucket_scan_mono size pv x y hxy (size - 1) 0

theorem bucket_of_lt (size : Nat) (hsize : 0 < size) (pv : List Int) (x : Int) :
    bucket_of size pv x < size := by
  have := bucket_scan_le size pv x (size - 1) 0 (Nat.zero_le _)
  unfold bucket_of
  omega

/-! ## Segments of the flattened send buffer -/

theorem displ_loop_getD (counts : List Nat) (offset j : Nat) (hj : j < counts.length) :
    (displ_loop offset counts).getD j 0 = offset + (counts.take j).sum := by
  induction counts generalizing offset j with
  | nil => simp at hj
  | cons c cs ih =>
    cases j with
    | zero => simp [displ_loop]
    | succ k =>
      have hk : k < cs.length := by simpa using hj
      simp only [displ_loop, List.getD_cons_succ, List.take_succ_cons, List.sum_cons]
      rw [ih (offset + c) k hk]
      omega

theorem segment_flatten (L : List (List Int)) (j : Nat) (hj : j < L.length) :
    segment L.flatten ((L.map List.length).take j).sum ((L.map List.length).getD j 0)
      = L.getD j [] := by
  induction L generalizing j with
  | nil => simp at hj
  | cons l t ih =>
    cases j with
    | zero => simp [segment]
    | succ k =>
      have hk : k < t.length := by simpa using hj
      have := ih k hk
      simp only [segment] at this ⊢
      simp only [List.map_cons, List.take_succ_cons, List.sum_cons, List.flatten_cons,
        List.getD_cons_succ]
      rw [List.drop_append_eq_append_drop]
      have h1 : List.drop (l.length + (List.take k (List.map List.length t)).sum) l = [] := by
        apply List.drop_eq_nil_of_le
        omega
      have h2 : l.length + (List.take k (List.map List.length t)).sum - l.length
          = (List.take k (List.map List.length t)).sum := by omega
      rw [h1, h2, List.nil_append]
      exact this

theorem bucket_sizes_eq (size : Nat) (pv : List Int) (l : List Int) :
    bucket_sizes size pv l = (buckets size pv l).map List.length := by
  simp [bucket_sizes, buckets, List.countP_eq_length_filter]

theorem buckets_length (size : Nat) (pv : List Int) (l : List Int) :
    (buckets size pv l).length = size := by
  simp [buckets]

/-- The segment a rank addresses to rank `j` is its bucket `j`. -/
theorem segment_send_buffer (size : Nat) (pv : List Int) (l : List Int) (j : Nat)
    (hj : j < size) :
    segment (send_buffer size pv l) ((send_displ size pv l).getD j 0)
      ((bucket_sizes size pv l).getD j 0)
      = l.filter (fun x => bucket_of size pv x = j) := by
  have hlen : j < (buckets size pv l).length := by rw [buckets_length]; exact hj
  unfold send_displ send_buffer
  rw [bucket_sizes_eq, displ_loop_getD _ _ _ (by simpa using hlen), Nat.zero_add,
    segment_flatten _ _ hlen]
  simp [buckets, List.getD_eq_getElem?_getD, hj]

theorem recv_buffer_eq (size : Nat) (pv : List Int) (sl : Nat → List Int) (j : Nat)
    (hj : j < size) :
    recv_buffer size pv sl j
      = ((List.range size).map
          (fun i => (sl i).filter (fun x => bucket_of size pv x = j))).flatten := by
  unfold recv_buffer
  congr 1
  apply List.map_congr_left
  intro i _
  exact segment_send_buffer size pv (sl i) j hj

theorem mem_recv_buffer (size : Nat) (pv : List Int) (sl : Nat → List Int) (j : Nat)
    (hj : j < size) (x : Int) :
    x ∈ recv_buffer size pv sl j ↔ ∃ i, i < size ∧ x ∈ sl i ∧ bucket_of size pv x = j := by
  rw [recv_buffer_eq size pv sl j hj]
  simp only [List.mem_flatten, List.mem_map, List.mem_range]
  constructor
  · rintro ⟨l, ⟨i, hi, rfl⟩, hx⟩
    rw [List.mem_filter] at hx
    exact ⟨i, hi, hx.1, by simpa using hx.2⟩
  · rintro ⟨i, hi, hx, hb⟩
    exact ⟨_, ⟨i, hi, rfl⟩, List.mem_filter.mpr ⟨hx, by simpa using hb⟩⟩

/-! ## Scatter -/

theorem scatter_flatten_take (input : List Int) (ls k : Nat) :
    ((List.range k).map (fun r => (input.drop (r * ls)).take ls)).flatten
      = input.take (k * ls) := by
  induction k with
  | zero => simp
  | succ n ih =>
    rw [List.range_succ, List.map_append, List.flatten_append, ih]
    simp only [List.map_cons, List.map_nil, List.flatten_cons, List.flatten_nil,
      List.append_nil]
    rw [Nat.succ_mul, List.take_add]

theorem scatter_flatten (size : Nat) (input : List Int) (hdiv : input.length % size = 0) :
    (scatter size input).flatten = input := by
  unfold scatter
  rw [scatter_flatten_take]
  apply List.take_of_length_le
  have := Nat.div_add_mod input.length size
  rw [hdiv, Nat.add_zero] at this
  omega

theorem scatter_length (size : Nat) (input : List Int) : (scatter size input).length = size := by
  simp [scatter]

theorem mem_scatter (size : Nat) (input : List Int) (r : Nat) (x : Int)
    (hx : x ∈ (scatter size input).getD r []) : x ∈ input := by
  unfold scatter at hx
  by_cases hr : r < size
  · simp only [List.getD_eq_getElem?_getD, List.getElem?_map, List.getElem?_range hr,
      Option.map_some', Option.getD_some] at hx
    exact List.mem_of_mem_drop (List.mem_of_mem_take hx)
  · have : ((List.range size).map (fun r =>
        (input.drop (r * (input.length / size))).take (input.length / size)))[r]? = none := by
      apply List.getElem?_eq_none
      simp; omega
    simp [List.getD_eq_getElem?_getD, this] at hx

/-! ## Multisets of keys held by the ranks -/

theorem coe_flatten_map_range (n : Nat) (f : Nat → List Int) :
    (((List.range n).map f).flatten : Multiset Int)
      = ∑ r ∈ Finset.range n, (f r : Multiset Int) := by
  induction n with
  | zero => simp
  | succ k ih =>
    rw [List.range_succ, List.map_append, List.flatten_append, ← Multiset.coe_add, ih,
      Finset.sum_range_succ]
    simp

theorem map_getD_range (L : List (List Int)) :
    (List.range L.length).map (fun r => L.getD r []) = L := by
  apply List.ext_getElem
  · simp
  · intro i h1 h2
    simp [List.getD_eq_getElem?_getD, List.getElem?_eq_getElem h2]

theorem coe_flatten_eq_sum (L : List (List Int)) (n : Nat) (hn : L.length = n) :
    (L.flatten : Multiset Int) = ∑ r ∈ Finset.range n, ((L.getD r [] : List Int) : Multiset Int) := by
  rw [← coe_flatten_map_range, ← hn, map_getD_range]

theorem sum_filter_fibres (n : Nat) (g : Int → Nat) (hg : ∀ x, g x < n) (l : List Int) :
    ∑ j ∈ Finset.range n, ((l.filter (fun x => g x = j) : List Int) : Multiset Int)
      = (l : Multiset Int) := by
  induction l with
  | nil => simp
  | cons a t ih =>
    have key : ∀ j, (((a :: t).filter (fun x => g x = j) : List Int) : Multiset Int)
        = (if g a = j then ({a} : Multiset Int) else 0)
          + ((t.filter (fun x => g x = j) : List Int) : Multiset Int) := by
      intro j
      by_cases h : g a = j
      · simp [List.filter_cons, h]
      · simp [List.filter_cons, h]
    simp only [key]
    rw [Finset.sum_add_distrib, ih, Finset.sum_ite_eq]
    simp [hg a]

/-! ## `quicksort_sampling`: order across ranks, permutation, end-to-end result -/

theorem quicksort_sampling_getD (u : Unspec) (size : Nat) (locals : List (List Int)) (j : Nat)
    (hj : j < size) :
    (quicksort_sampling u size locals).getD j []
      = qsort compare
          (recv_buffer size
            (pivots size (all_samples u size (fun r => qsort compare (locals.getD r []))))
            (fun r => qsort compare (locals.getD r [])) j) := by
  simp [quicksort_sampling, List.getD_eq_getElem?_getD, List.getElem?_range hj]

theorem quicksort_sampling_getD_ge (u : Unspec) (size : Nat) (locals : List (List Int))
    (j : Nat) (hj : size ≤ j) : (quicksort_sampling u size locals).getD j [] = [] := by
  have : (quicksort_sampling u size locals)[j]? = none := by
    apply List.getElem?_eq_none
    simp [quicksort_sampling]; omega
  simp [List.getD_eq_getElem?_getD, this]

/-- A key of the final buffer of rank `j` was in some rank's local data and its scan stops at
bucket `j`. -/
theorem mem_quicksort_sampling (u : Unspec) (size : Nat) (locals : List (List Int)) (j : Nat)
    (x : Int) (hx : x ∈ (quicksort_sampling u size locals).getD j []) :
    j < size ∧ (∃ i, i < size ∧ x ∈ locals.getD i []) ∧
      bucket_of size
        (pivots size (all_samples u size (fun r => qsort compare (locals.getD r [])))) x = j := by
  by_cases hj : j < size
  · rw [quicksort_sampling_getD u size locals j hj, mem_qsort, mem_recv_buffer _ _ _ _ hj] at hx
    obtain ⟨i, hi, hxi, hb⟩ := hx
    exact ⟨hj, ⟨i, hi, (mem_qsort _ _ _).mp hxi⟩, hb⟩
  · rw [quicksort_sampling_getD_ge u size locals j (by omega)] at hx
    simp at hx

theorem rsds_order_across (u : Unspec) (size : Nat) (locals : List (List Int)) (i j : Nat)
    (hij : i < j) (x y : Int) (hx : x ∈ (quicksort_sampling u size locals).getD i [])
    (hy : y ∈ (quicksort_sampling u size locals).getD j []) : x ≤ y := by
  obtain ⟨_, _, hbx⟩ := mem_quicksort_sampling u size locals i x hx
  obtain ⟨_, _, hby⟩ := mem_quicksort_sampling u size locals j y hy
  by_contra hlt
  have hyx : y ≤ x := by omega
  have := bucket_of_mono size
    (pivots size (all_samples u size (fun r => qsort compare (locals.getD r [])))) y x hyx
  omega

theorem rsds_multiset (u : Unspec) (size : Nat) (hsize : 0 < size) (locals : List (List Int))
    (hlen : locals.length = size) :
    ((quicksort_sampling u size locals).flatten : Multiset Int)
      = (locals.flatten : Multiset Int) := by
  rw [coe_flatten_eq_sum locals size hlen]
  unfold quicksort_sampling
  simp only []
  rw [coe_flatten_map_range]
  have h1 : ∀ j ∈ Finset.range size,
      ((qsort compare (recv_buffer size
          (pivots size (all_samples u size (fun r => qsort compare (locals.getD r []))))
          (fun r => qsort compare (locals.getD r [])) j) : List Int) : Multiset Int)
      = ∑ i ∈ Finset.range size,
          (((qsort compare (locals.getD i [])).filter (fun x => bucket_of size
            (pivots size (all_samples u size (fun r => qsort compare (locals.getD r [])))) x
              = j) : List Int) : Multiset Int) := by
    intro j hj
    rw [qsort_coe, recv_buffer_eq _ _ _ _ (Finset.mem_range.mp hj), coe_flatten_map_range]
  rw [Finset.sum_congr rfl h1, Finset.sum_comm]
  apply Finset.sum_congr rfl
  intro i _
  rw [sum_filter_fibres size _ (fun x => bucket_of_lt size hsize _ x), qsort_coe]

theorem rsds_perm (u : Unspec) (size : Nat) (hsize : 0 < size) (input : List Int)
    (hdiv : input.length % size = 0) :
    ((quicksort_sampling u size (scatter size input)).flatten).Perm input := by
  have h := rsds_multiset u size hsize (scatter size input) (scatter_length size input)
  rw [scatter_flatten size input hdiv] at h
  exact Multiset.coe_eq_coe.mp h

theorem keysSafe_of_subset (l m : List Int) (h : ∀ x ∈ l, x ∈ m) (hm : KeysSafe m) :
    KeysSafe l :=
  fun a ha b hb => hm a (h a ha) b (h b hb)

/-- On keys whose differences fit 32 bits, the buffers of `quicksort_sampling` read in rank
order are the sorted input, whatever the unassigned sample cells hold. -/
theorem rsds_sorts_of_keysSafe (u : Unspec) (size : Nat) (hsize : 0 < size) (input : List Int)
    (hdiv : input.length % size = 0) (hsafe : KeysSafe input) :
    (quicksort_sampling u size (scatter size input)).flatten = sorted_keys input := by
  have hperm := rsds_perm u size hsize input hdiv
  have hmem : ∀ j x, x ∈ (quicksort_sampling u size (scatter size input)).getD j [] →
      x ∈ input := by
    intro j x hx
    obtain ⟨_, ⟨i, _, hxi⟩, _⟩ := mem_quicksort_sampling u size _ j x hx
    exact mem_scatter size input i x hxi
  have hsorted : ((quicksort_sampling u size (scatter size input)).flatten).Sorted
      (fun a b => a ≤ b) := by
    unfold List.Sorted
    rw [List.pairwise_flatten]
    constructor
    · intro l hl
      obtain ⟨j, hj, rfl⟩ := List.getElem_of_mem hl
      have hjs : j < size := by simpa [quicksort_sampling] using hj
      have e : (quicksort_sampling u size (scatter size input))[j]
          = (quicksort_sampling u size (scatter size input)).getD j [] := by
        simp [List.getD_eq_getElem?_getD, List.getElem?_eq_getElem hj]
      rw [e, quicksort_sampling_getD u size _ j hjs]
      apply qsort_sorted
      apply keysSafe_of_subset _ input _ hsafe
      intro x hx
      apply hmem j x
      rw [quicksort_sampling_getD u size _ j hjs, mem_qsort]
      exact hx
    · rw [List.pairwise_iff_getElem]
      intro i j hi hj hij x hx y hy
      have ei : (quicksort_sampling u size (scatter size input))[i]
          = (quicksort_sampling u size (scatter size input)).getD i [] := by
        simp [List.getD_eq_getElem?_getD, List.getElem?_eq_getElem hi]
      have ej : (quicksort_sampling u size (scatter size input))[j]
          = (quicksort_sampling u size (scatter size input)).getD j [] := by
        simp [List.getD_eq_getElem?_getD, List.getElem?_eq_getElem hj]
      rw [ei] at hx
      rw [ej] at hy
      exact rsds_order_across u size _ i j hij x y hx hy
  exact List.eq_of_perm_of_sorted (hperm.trans (List.perm_insertionSort _ input).symm) hsorted
    (List.sorted_insertionSort _ input)

/-! ## Coordinates and neighbours on the hypercube -/

theorem stride_pos (n : Nat) : 0 < 2 ^ n := Nat.two_pow_pos n

theorem two_pow_split (d i : Nat) (hi : i < d) : 2 ^ d = 2 ^ (d - 1 - i) * (2 * 2 ^ i) := by
  rw [← pow_succ', ← pow_add]
  congr 1
  omega

theorem div_stride_lt (d i r : Nat) (hi : i < d) (hr : r < 2 ^ d) :
    r / 2 ^ (d - 1 - i) < 2 * 2 ^ i := by
  rw [Nat.div_lt_iff_lt_mul (stride_pos _)]
  rw [two_pow_split d i hi, Nat.mul_comm] at hr
  exact hr

theorem neighbour_of_zero (d r i : Nat) (h : coord d r i = 0) :
    neighbour d r i = r + 2 ^ (d - 1 - i) := by
  simp [neighbour, h]

theorem neighbour_of_ne (d r i : Nat) (h : ¬ coord d r i = 0) :
    neighbour d r i = r - 2 ^ (d - 1 - i) := by
  simp [neighbour, h]

theorem stride_le_of_coord_ne (d r i : Nat) (h : ¬ coord d r i = 0) : 2 ^ (d - 1 - i) ≤ r := by
  by_contra hcon
  have : r / 2 ^ (d - 1 - i) = 0 := Nat.div_eq_of_lt (by omega)
  apply h
  simp [coord, this]

theorem coord_lt_two (d r i : Nat) : coord d r i < 2 := by
  unfold coord
  exact Nat.mod_lt _ (by norm_num)

theorem neighbour_div (d r i : Nat) :
    neighbour d r i / 2 ^ (d - 1 - i)
      = if coord d r i = 0 then r / 2 ^ (d - 1 - i) + 1 else r / 2 ^ (d - 1 - i) - 1 := by
  have hm : 0 < 2 ^ (d - 1 - i) := stride_pos _
  by_cases h : coord d r i = 0
  · rw [neighbour_of_zero d r i h, if_pos h]
    exact Nat.add_div_right r hm
  · rw [neighbour_of_ne d r i h, if_neg h]
    have hle : 2 ^ (d - 1 - i) * 1 ≤ r := by
      simpa using stride_le_of_coord_ne d r i h
    have := Nat.sub_mul_div r (2 ^ (d - 1 - i)) 1 hle
    simpa using this

theorem coord_neighbour_self (d r i : Nat) : coord d (neighbour d r i) i = 1 - coord d r i := by
  have h := neighbour_div d r i
  have hlt := coord_lt_two d r i
  have hle : ¬ coord d r i = 0 → 1 ≤ r / 2 ^ (d - 1 - i) := by
    intro hne
    exact (Nat.le_div_iff_mul_le (stride_pos _)).mpr (by simpa using stride_le_of_coord_ne d r i hne)
  have hc : coord d r i = (r / 2 ^ (d - 1 - i)) % 2 := rfl
  have hn : coord d (neighbour d r i) i = (neighbour d r i / 2 ^ (d - 1 - i)) % 2 := rfl
  rw [hn, h]
  generalize r / 2 ^ (d - 1 - i) = q at *
  generalize coord d r i = c at *
  split <;> omega

theorem neighbour_neighbour (d r i : Nat) : neighbour d (neighbour d r i) i = r := by
  have hm : 0 < 2 ^ (d - 1 - i) := stride_pos _
  have hc := coord_neighbour_self d r i
  have hlt := coord_lt_two d r i
  by_cases h : coord d r i = 0
  · have h2 : ¬ coord d (neighbour d r i) i = 0 := by omega
    rw [neighbour_of_ne _ _ _ h2, neighbour_of_zero _ _ _ h]
    omega
  · have h2 : coord d (neighbour d r i) i = 0 := by omega
    have hle := stride_le_of_coord_ne d r i h
    rw [neighbour_of_zero _ _ _ h2, neighbour_of_ne _ _ _ h]
    omega

theorem neighbour_lt (d r i : Nat) (hi : i < d) (hr : r < 2 ^ d) : neighbour d r i < 2 ^ d := by
  have hm : 0 < 2 ^ (d - 1 - i) := stride_pos _
  by_cases h : coord d r i = 0
  · have hq := div_stride_lt d i r hi hr
    have hc : coord d r i = (r / 2 ^ (d - 1 - i)) % 2 := rfl
    have hlt : r < 2 ^ (d - 1 - i) * (r / 2 ^ (d - 1 - i) + 1) := Nat.lt_mul_div_succ r hm
    have hq2 : r / 2 ^ (d - 1 - i) + 2 ≤ 2 * 2 ^ i := by
      rw [h] at hc
      generalize r / 2 ^ (d - 1 - i) = q at *
      generalize 2 ^ i = t at *
      omega
    have hmul : 2 ^ (d - 1 - i) * (r / 2 ^ (d - 1 - i) + 2) ≤ 2 ^ (d - 1 - i) * (2 * 2 ^ i) :=
      Nat.mul_le_mul_left _ hq2
    rw [neighbour_of_zero _ _ _ h, two_pow_split d i hi]
    have e1 : 2 ^ (d - 1 - i) * (r / 2 ^ (d - 1 - i) + 2)
        = 2 ^ (d - 1 - i) * (r / 2 ^ (d - 1 - i) + 1) + 2 ^ (d - 1 - i) := by ring
    rw [e1] at hmul
    generalize 2 ^ (d - 1 - i) * (2 * 2 ^ i) = T at *
    generalize 2 ^ (d - 1 - i) * (r / 2 ^ (d - 1 - i) + 1) = U at *
    generalize 2 ^ (d - 1 - i) = m at *
    omega
  · rw [neighbour_of_ne _ _ _ h]
    have : r - 2 ^ (d - 1 - i) ≤ r := Nat.sub_le _ _
    exact Nat.lt_of_le_of_lt this hr

/-- Flipping coordinate `i` leaves every other coordinate alone. -/
theorem coord_neighbour_other (d r i k : Nat) (hi : i < d) (hk : k < d) (hne : k ≠ i) :
    coord d (neighbour d r i) k = coord d r k := by
  have hdiv := neighbour_div d r i
  have hci : coord d r i = (r / 2 ^ (d - 1 - i)) % 2 := rfl
  rcases Nat.lt_or_gt_of_ne hne with hlt | hgt
  · -- axis `k` is more significant than axis `i`
    have e : 2 ^ (d - 1 - k) = 2 ^ (d - 1 - i) * (2 * 2 ^ (i - k - 1)) := by
      rw [← pow_succ', ← pow_add]
      congr 1
      omega
    have hle1 : ¬ coord d r i = 0 → 1 ≤ r / 2 ^ (d - 1 - i) := by
      intro hne
      exact (Nat.le_div_iff_mul_le (stride_pos _)).mpr
        (by simpa using stride_le_of_coord_ne d r i hne)
    have half : neighbour d r i / 2 ^ (d - 1 - i) / 2 = r / 2 ^ (d - 1 - i) / 2 := by
      rw [hdiv]
      generalize r / 2 ^ (d - 1 - i) = q at *
      generalize coord d r i = c at *
      split <;> omega
    unfold coord
    rw [e, ← Nat.div_div_eq_div_mul, ← Nat.div_div_eq_div_mul, ← Nat.div_div_eq_div_mul,
      ← Nat.div_div_eq_div_mul, half]
  · -- axis `k` is less significant than axis `i`
    have hm : 0 < 2 ^ (d - 1 - k) := stride_pos _
    have e : 2 ^ (d - 1 - i) = 2 ^ (d - 1 - k) * (2 * 2 ^ (k - i - 1)) := by
      rw [← pow_succ', ← pow_add]
      congr 1
      omega
    by_cases h : coord d r i = 0
    · unfold coord
      rw [neighbour_of_zero _ _ _ h, e, Nat.add_mul_div_left _ _ hm]
      generalize r / 2 ^ (d - 1 - k) = q
      generalize 2 ^ (k - i - 1) = t
      omega
    · have hle := stride_le_of_coord_ne d r i h
      have hle' : 2 ^ (d - 1 - k) * (2 * 2 ^ (k - i - 1)) ≤ r := by rw [← e]; exact hle
      have hq : 2 * 2 ^ (k - i - 1) ≤ r / 2 ^ (d - 1 - k) := by
        rw [Nat.le_div_iff_mul_le hm, Nat.mul_comm]
        exact hle'
      unfold coord
      rw [neighbour_of_ne _ _ _ h, e, Nat.sub_mul_div _ _ _ hle']
      generalize r / 2 ^ (d - 1 - k) = q at *
      generalize 2 ^ (k - i - 1) = t at *
      omega

/-- Two ranks `a < b` of the cube differ on some axis where `a` has bit 0 and `b` bit 1. -/
theorem exists_axis_of_lt (d : Nat) : ∀ a b : Nat, a < b → b < 2 ^ d →
    ∃ k, k < d ∧ coord d a k = 0 ∧ coord d b k = 1 := by
  induction d with
  | zero =>
    intro a b hab hb
    simp at hb
    omega
  | succ n ih =>
    intro a b hab hb
    have hp : 0 < 2 ^ n := stride_pos n
    have hb2 : b / 2 ^ n < 2 := by
      rw [Nat.div_lt_iff_lt_mul hp]
      rw [pow_succ] at hb
      omega
    have hmono : a / 2 ^ n ≤ b / 2 ^ n := Nat.div_le_div_right (Nat.le_of_lt hab)
    by_cases htop : a / 2 ^ n = b / 2 ^ n
    · -- same top bit: compare the remainders on the smaller cube
      have ha' := Nat.div_add_mod a (2 ^ n)
      have hb' := Nat.div_add_mod b (2 ^ n)
      have hlt : a % 2 ^ n < b % 2 ^ n := by
        rw [htop] at ha'
        generalize 2 ^ n * (b / 2 ^ n) = T at *
        omega
      obtain ⟨k, hk, hka, hkb⟩ := ih (a % 2 ^ n) (b % 2 ^ n) hlt (Nat.mod_lt _ hp)
      have e : 2 ^ n = 2 ^ (n - 1 - k) * (2 * 2 ^ k) := two_pow_split n k hk
      have hs : n + 1 - 1 - (k + 1) = n - 1 - k := by omega
      have hx : ∀ x : Nat, x % 2 ^ n / 2 ^ (n - 1 - k) % 2 = x / 2 ^ (n - 1 - k) % 2 := by
        intro x
        have : x % 2 ^ n / 2 ^ (n - 1 - k) = x / 2 ^ (n - 1 - k) % (2 * 2 ^ k) := by
          conv_lhs => rw [e]
          exact Nat.mod_mul_right_div_self _ _ _
        rw [this, Nat.mod_mod_of_dvd _ (Dvd.intro _ rfl)]
      refine ⟨k + 1, by omega, ?_, ?_⟩
      · unfold coord at hka ⊢
        rw [hs, ← hx]
        exact hka
      · unfold coord at hkb ⊢
        rw [hs, ← hx]
        exact hkb
    · have hs : n + 1 - 1 - 0 = n := by omega
      refine ⟨0, by omega, ?_, ?_⟩
      · unfold coord
        rw [hs]
        generalize a / 2 ^ n = qa at *
        generalize b / 2 ^ n = qb at *
        omega
      · unfold coord
        rw [hs]
        generalize a / 2 ^ n = qa at *
        generalize b / 2 ^ n = qb at *
        omega

/-! ## The power-of-two test `(size & (size - 1)) == 0` -/

theorem small_add_larger (pivot : Int) (l : List Int) :
    ((small_arr pivot l : List Int) : Multiset Int) + ((larger_arr pivot l : List Int) : Multiset Int)
      = (l : Multiset Int) := by
  unfold small_arr larger_arr
  rw [← Multiset.filter_coe, ← Multiset.filter_coe]
  simpa using Multiset.filter_add_not (fun x => x ≤ pivot) (l : Multiset Int)

theorem rebuild_eq (d i : Nat) (p : Int) (r : Nat) (data recv : List Int) :
    rebuild d i p r data recv = kept d i p r data ++ recv := by
  unfold rebuild kept
  split <;> rfl

theorem kept_add_send (d i : Nat) (p : Int) (r : Nat) (data : List Int) :
    ((kept d i p r data : List Int) : Multiset Int) + ((send_buf d i p r data : List Int) : Multiset Int)
      = (data : Multiset Int) := by
  unfold kept send_buf
  split
  · exact small_add_larger p data
  · rw [add_comm]; exact small_add_larger p data

theorem hypercube_round_length (d size i : Nat) (bufs : List (List Int)) :
    (hypercube_round d size i bufs).length = size := by
  simp [hypercube_round]

theorem hypercube_round_getD (d size i : Nat) (bufs : List (List Int)) (r : Nat) (hr : r < size) :
    (hypercube_round d size i bufs).getD r []
      = rebuild d i (round_pivot size (fun q => bufs.getD q [])) r (bufs.getD r [])
          (send_buf d i (round_pivot size (fun q => bufs.getD q []))
            (neighbour d r i) (bufs.getD (neighbour d r i) [])) := by
  simp [hypercube_round, List.getD_eq_getElem?_getD, List.getElem?_range hr]

/-- A round on the full cube moves keys between ranks without creating or losing any. -/
theorem hypercube_round_multiset (d i : Nat) (hi : i < d) (bufs : List (List Int))
    (hlen : bufs.length = 2 ^ d) :
    ((hypercube_round d (2 ^ d) i bufs).flatten : Multiset Int)
      = (bufs.flatten : Multiset Int) := by
  rw [coe_flatten_eq_sum bufs (2 ^ d) hlen]
  unfold hypercube_round
  rw [coe_flatten_map_range]
  simp only [rebuild_eq, ← Multiset.coe_add]
  rw [Finset.sum_add_distrib]
  have hswap : ∑ r ∈ Finset.range (2 ^ d),
        ((send_buf d i (round_pivot (2 ^ d) (fun q => bufs.getD q []))
          (neighbour d r i) (bufs.getD (neighbour d r i) []) : List Int) : Multiset Int)
      = ∑ r ∈ Finset.range (2 ^ d),
        ((send_buf d i (round_pivot (2 ^ d) (fun q => bufs.getD q []))
          r (bufs.getD r []) : List Int) : Multiset Int) := by
    apply Finset.sum_nbij' (fun r => neighbour d r i) (fun r => neighbour d r i)
    · intro r hr
      exact Finset.mem_range.mpr (neighbour_lt d r i hi (Finset.mem_range.mp hr))
    · intro r hr
      exact Finset.mem_range.mpr (neighbour_lt d r i hi (Finset.mem_range.mp hr))
    · intro r _
      exact neighbour_neighbour d r i
    · intro r _
      exact neighbour_neighbour d r i
    · intro r _
      rfl
  rw [hswap, ← Finset.sum_add_distrib]
  apply Finset.sum_congr rfl
  intro r _
  exact kept_add_send d i _ r _

theorem hypercube_rounds_length (d size k : Nat) (locals : List (List Int))
    (hlen : locals.length = size) : (hypercube_rounds d size k locals).length = size := by
  cases k with
  | zero => simpa [hypercube_rounds] using hlen
  | succ n => simp [hypercube_rounds, hypercube_round_length]

theorem hypercube_rounds_multiset (d k : Nat) (hk : k ≤ d) (locals : List (List Int))
    (hlen : locals.length = 2 ^ d) :
    ((hypercube_rounds d (2 ^ d) k locals).flatten : Multiset Int)
      = (locals.flatten : Multiset Int) := by
  induction k with
  | zero => rfl
  | succ n ih =>
    simp only [hypercube_rounds]
    rw [hypercube_round_multiset d n (by omega) _ (hypercube_rounds_length d _ n locals hlen)]
    exact ih (by omega)

theorem hypercube_quicksort_getD (d size : Nat) (locals : List (List Int)) (r : Nat)
    (hr : r < size) :
    (hypercube_quicksort d size locals).getD r []
      = qsort compare ((hypercube_rounds d size d locals).getD r []) := by
  simp [hypercube_quicksort, List.getD_eq_getElem?_getD, List.getElem?_range hr]

theorem hypercube_quicksort_getD_ge (d size : Nat) (locals : List (List Int)) (r : Nat)
    (hr : size ≤ r) : (hypercube_quicksort d size locals).getD r [] = [] := by
  have : (hypercube_quicksort d size locals)[r]? = none := by
    apply List.getElem?_eq_none
    simp [hypercube_quicksort]; omega
  simp [List.getD_eq_getElem?_getD, this]

theorem hypercube_quicksort_multiset (d : Nat) (locals : List (List Int))
    (hlen : locals.length = 2 ^ d) :
    ((hypercube_quicksort d (2 ^ d) locals).flatten : Multiset Int)
      = (locals.flatten : Multiset Int) := by
  rw [← hypercube_rounds_multiset d d (Nat.le_refl d) locals hlen]
  rw [coe_flatten_eq_sum (hypercube_rounds d (2 ^ d) d locals) (2 ^ d)
    (hypercube_rounds_length d _ d locals hlen)]
  unfold hypercube_quicksort
  rw [coe_flatten_map_range]
  apply Finset.sum_congr rfl
  intro r _
  exact qsort_coe _ _

theorem hrbs_perm (d : Nat) (input : List Int) (hdiv : input.length % 2 ^ d = 0) :
    ((hypercube_quicksort d (2 ^ d) (scatter (2 ^ d) input)).flatten).Perm input := by
  have h := hypercube_quicksort_multiset d (scatter (2 ^ d) input) (scatter_length _ input)
  rw [scatter_flatten _ input hdiv] at h
  exact Multiset.coe_eq_coe.mp h

/-! ## The value range a rank holds after a round -/

theorem mem_hypercube_round (d i : Nat) (bufs : List (List Int)) (r : Nat)
    (hr : r < 2 ^ d) (x : Int) (hx : x ∈ (hypercube_round d (2 ^ d) i bufs).getD r []) :
    (x ∈ bufs.getD r [] ∨ x ∈ bufs.getD (neighbour d r i) []) ∧
      (x ≤ round_pivot (2 ^ d) (fun q => bufs.getD q []) ↔ coord d r i = 0) := by
  rw [hypercube_round_getD d _ i bufs r hr] at hx
  have hc := coord_neighbour_self d r i
  have hlt := coord_lt_two d r i
  unfold rebuild send_buf small_arr larger_arr at hx
  by_cases h : coord d r i = 0
  · have h2 : ¬ coord d (neighbour d r i) i = 0 := by omega
    rw [if_pos h, if_neg h2] at hx
    simp only [List.mem_append, List.mem_filter, decide_eq_true_eq] at hx
    rcases hx with ⟨hm, hle⟩ | ⟨hm, hle⟩
    · exact ⟨Or.inl hm, iff_of_true hle h⟩
    · exact ⟨Or.inr hm, iff_of_true hle h⟩
  · have h2 : coord d (neighbour d r i) i = 0 := by omega
    rw [if_neg h, if_pos h2] at hx
    simp only [List.mem_append, List.mem_filter, decide_eq_true_eq] at hx
    rcases hx with ⟨hm, hle⟩ | ⟨hm, hle⟩
    · exact ⟨Or.inl hm, iff_of_false hle h⟩
    · exact ⟨Or.inr hm, iff_of_false hle h⟩

/-- Range invariant: once round `k` is over, and after every later round, a rank holds keys
`<= pivot k` exactly when its coordinate `k` is 0. -/
theorem hypercube_rounds_range (d : Nat) (locals : List (List Int)) (m : Nat) (hm : m ≤ d) :
    ∀ k, k < m → ∀ r, r < 2 ^ d → ∀ x ∈ (hypercube_rounds d (2 ^ d) m locals).getD r [],
      (x ≤ pivot_of_round d (2 ^ d) k locals ↔ coord d r k = 0) := by
  induction m with
  | zero => intro k hk; omega
  | succ n ih =>
    intro k hk r hr x hx
    simp only [hypercube_rounds] at hx
    obtain ⟨hfrom, hpiv⟩ := mem_hypercube_round d n _ r hr x hx
    by_cases hkn : k = n
    · subst hkn
      exact hpiv
    · have hk' : k < n := by omega
      rcases hfrom with h1 | h1
      · exact ih (by omega) k hk' r hr x h1
      · have := ih (by omega) k hk' (neighbour d r n) (neighbour_lt d r n (by omega) hr) x h1
        rw [coord_neighbour_other d r n k (by omega) (by omega) hkn] at this
        exact this

/-- In the final state of `hypercube_quicksort` on the full cube, ranks hold disjoint value
ranges in rank order. -/
theorem hrbs_order_across (d : Nat) (locals : List (List Int)) (i j : Nat) (hij : i < j)
    (x y : Int) (hx : x ∈ (hypercube_quicksort d (2 ^ d) locals).getD i [])
    (hy : y ∈ (hypercube_quicksort d (2 ^ d) locals).getD j []) : x < y := by
  have hj : j < 2 ^ d := by
    by_contra hcon
    rw [hypercube_quicksort_getD_ge d _ locals j (by omega)] at hy
    simp at hy
  have hi : i < 2 ^ d := by omega
  rw [hypercube_quicksort_getD d _ locals i hi, mem_qsort] at hx
  rw [hypercube_quicksort_getD d _ locals j hj, mem_qsort] at hy
  obtain ⟨k, hk, hki, hkj⟩ := exists_axis_of_lt d i j hij hj
  have h1 := hypercube_rounds_range d locals d (Nat.le_refl d) k hk i hi x hx
  have h2 := hypercube_rounds_range d locals d (Nat.le_refl d) k hk j hj y hy
  have hxle : x ≤ pivot_of_round d (2 ^ d) k locals := h1.mpr hki
  have hygt : ¬ y ≤ pivot_of_round d (2 ^ d) k locals := by
    intro hle
    have := h2.mp hle
    omega
  omega

/-! ## Sizes, unions, and the pivot offsets -/

theorem multiset_union_eq (bufs : List (List Int)) :
    multiset_union bufs = (bufs.flatten : Multiset Int) := by
  unfold multiset_union
  induction bufs with
  | nil => rfl
  | cons b t ih =>
    rw [List.map_cons, List.sum_cons, ih, List.flatten_cons]
    exact Multiset.coe_add b t.flatten

theorem total_size_eq (bufs : List (List Int)) :
    total_size bufs = Multiset.card (bufs.flatten : Multiset Int) := by
  unfold total_size
  rw [Multiset.coe_card, List.length_flatten]

theorem pivots_length (size : Nat) (gathered : List Int) :
    (pivots size gathered).length = size - 1 := by
  simp [pivots]

theorem pivot_offset_lt (size i : Nat) (hi : i < size - 1) : pivot_offset i size < size * size := by
  unfold pivot_offset
  have h1 : (i + 1) * size + size ≤ size * size := by
    have : (i + 2) * size ≤ size * size := Nat.mul_le_mul_right size (by omega)
    calc (i + 1) * size + size = (i + 2) * size := by ring
      _ ≤ size * size := this
  have h2 : size / 2 < size := Nat.div_lt_self (by omega) (by norm_num)
  omega

theorem pivot_offset_strictMono (size i j : Nat) (hsize : 0 < size) (hij : i < j) :
    pivot_offset i size < pivot_offset j size := by
  unfold pivot_offset
  have h1 : (i + 1) * size + size ≤ (j + 1) * size := by
    have : (i + 2) * size ≤ (j + 1) * size := Nat.mul_le_mul_right size (by omega)
    calc (i + 1) * size + size = (i + 2) * size := by ring
      _ ≤ (j + 1) * size := this
  have h3 : 1 ≤ (i + 1) * size := Nat.mul_pos (by omega) hsize
  omega

theorem all_samples_length (u : Unspec) (size : Nat) (hsize : 0 < size) (sl : Nat → List Int) :
    (all_samples u size sl).length = size * size := by
  have hs : ∀ r, (sample u size r (sl r)).length = size := by
    intro r
    simp [sample, sample_written]
    omega
  unfold all_samples
  rw [List.length_flatten, List.map_map]
  have : (List.length ∘ fun r => sample u size r (sl r)) = fun _ => size := by
    funext r
    exact hs r
  rw [this]
  simp

/-- On samples whose differences fit 32 bits the pivots come out in non-decreasing order. -/
theorem pivots_sorted_of_keysSafe (size : Nat) (hsize : 0 < size) (gathered : List Int)
    (hlen : gathered.length = size * size) (hsafe : KeysSafe gathered) :
    (pivots size gathered).Sorted (fun a b => a ≤ b) := by
  have hs := qsort_sorted gathered hsafe
  have hl : (qsort compare gathered).length = size * size := by
    rw [(qsort_perm compare gathered).length_eq, hlen]
  unfold pivots List.Sorted
  rw [List.pairwise_map]
  apply List.Pairwise.imp_of_mem _ (List.pairwise_lt_range (size - 1))
  intro a b ha hb hab
  have ha' := pivot_offset_lt size a (List.mem_range.mp ha)
  have hb' := pivot_offset_lt size b (List.mem_range.mp hb)
  have hlt := pivot_offset_strictMono size a b hsize hab
  rw [List.getD_eq_getElem _ _ (by omega), List.getD_eq_getElem _ _ (by omega)]
  exact (List.pairwise_iff_getElem.mp hs) _ _ _ _ hlt

/-- On keys whose differences fit 32 bits every final buffer of `quicksort_sampling` is in
non-decreasing order. -/
theorem rsds_local_order_of_keysSafe (u : Unspec) (size : Nat) (input : List Int)
    (hsafe : KeysSafe input) (r : Nat) :
    ((quicksort_sampling u size (scatter size input)).getD r []).Sorted (fun a b => a ≤ b) := by
  by_cases hr : r < size
  · have hmem : ∀ x, x ∈ (quicksort_sampling u size (scatter size input)).getD r [] →
        x ∈ input := by
      intro x hx
      obtain ⟨_, ⟨i, _, hxi⟩, _⟩ := mem_quicksort_sampling u size _ r x hx
      exact mem_scatter size input i x hxi
    rw [quicksort_sampling_getD u size _ r hr] at hmem ⊢
    apply qsort_sorted
    apply keysSafe_of_subset _ input _ hsafe
    intro x hx
    exact hmem x ((mem_qsort _ _ _).mpr hx)
  · rw [quicksort_sampling_getD_ge u size _ r (by omega)]
    exact List.sorted_nil

theorem mem_hypercube_rounds (d : Nat) (locals : List (List Int)) (k : Nat) (hk : k ≤ d)
    (hlen : locals.length = 2 ^ d) (r : Nat) (x : Int)
    (hx : x ∈ (hypercube_rounds d (2 ^ d) k locals).getD r []) : x ∈ locals.flatten := by
  have h := hypercube_rounds_multiset d k hk locals hlen
  have hx' : x ∈ ((hypercube_rounds d (2 ^ d) k locals).flatten : Multiset Int) := by
    rw [Multiset.mem_coe, List.mem_flatten]
    refine ⟨_, ?_, hx⟩
    by_cases hr : r < (hypercube_rounds d (2 ^ d) k locals).length
    · rw [List.getD_eq_getElem _ _ hr]
      exact List.getElem_mem _
    · rw [List.getD_eq_default _ _ (by omega)] at hx
      simp at hx
  rw [h] at hx'
  exact Multiset.mem_coe.mp hx'

/-- On keys whose differences fit 32 bits every final buffer of `hypercube_quicksort` is in
non-decreasing order. -/
theorem hrbs_local_order_of_keysSafe (d : Nat) (input : List Int)
    (hdiv : input.length % 2 ^ d = 0) (hsafe : KeysSafe input) (r : Nat) :
    ((hypercube_quicksort d (2 ^ d) (scatter (2 ^ d) input)).getD r []).Sorted
      (fun a b => a ≤ b) := by
  by_cases hr : r < 2 ^ d
  · rw [hypercube_quicksort_getD d _ _ r hr]
    apply qsort_sorted
    apply keysSafe_of_subset _ input _ hsafe
    intro x hx
    have := mem_hypercube_rounds d (scatter (2 ^ d) input) d (Nat.le_refl d)
      (scatter_length _ input) r x hx
    rw [scatter_flatten _ input hdiv] at this
    exact this
  · rw [hypercube_quicksort_getD_ge d _ _ r (by omega)]
    exact List.sorted_nil

/-- The run documented in the header of `psrs.c`, whatever the unassigned cells hold. -/
theorem rsds_documented_run (u : Unspec) :
    (quicksort_sampling u 4 (scatter 4 [5, 2, 8, 1, 9, 3, 7, 4, 6, 10, 12, 11])).flatten
      = [1, 2, 3, 4, 5, 6, 7, 8, 9, 10, 11, 12] := by
  rw [rsds_sorts_of_keysSafe u 4 (by decide) _ (by decide) (by decide)]
  decide

/-! ## The partitioner of `quicksort_sampling` -/

/-- With enough iterations the scan returns the start bucket plus the number of leading
pivots, from that bucket on, that are strictly below the key. -/
theorem bucket_scan_eq_takeWhile (size : Nat) (pv : List Int) (x : Int)
    (hlen : pv.length = size - 1) (fuel bucket : Nat) (hfuel : size - 1 - bucket ≤ fuel) :
    bucket_scan size pv x fuel bucket
      = bucket + ((pv.drop bucket).takeWhile (fun p => decide (p < x))).length := by
  induction fuel generalizing bucket with
  | zero =>
    have hb : pv.length ≤ bucket := by omega
    simp [bucket_scan, List.drop_eq_nil_of_le hb]
  | succ n ih =>
    unfold bucket_scan
    by_cases hb : bucket < size - 1
    · have hb' : bucket < pv.length := by omega
      have hd : pv.drop bucket = pv[bucket] :: pv.drop (bucket + 1) :=
        List.drop_eq_getElem_cons hb'
      have hg : pv.getD bucket 0 = pv[bucket] := List.getD_eq_getElem _ _ hb'
      by_cases hx : x > pv.getD bucket 0
      · rw [if_pos ⟨hb, hx⟩, ih (bucket + 1) (by omega), hd]
        have hlt : decide (pv[bucket] < x) = true := by
          rw [decide_eq_true_eq, ← hg]; exact hx
        rw [List.takeWhile_cons, hlt]
        simp only [if_true, List.length_cons]
        omega
      · rw [if_neg (fun h => hx h.2), hd]
        have hlt : decide (pv[bucket] < x) = false := by
          rw [decide_eq_false_iff_not, ← hg]; exact hx
        rw [List.takeWhile_cons, hlt]
        simp
    · rw [if_neg (fun h => hb h.1)]
      have hb' : pv.length ≤ bucket := by omega
      simp [List.drop_eq_nil_of_le hb']

theorem countP_lt_eq_takeWhile (x : Int) (l : List Int)
    (hs : l.Sorted (fun a b => a ≤ b)) :
    l.countP (fun p => decide (p < x)) = (l.takeWhile (fun p => decide (p < x))).length := by
  induction l with
  | nil => rfl
  | cons a t ih =>
    have hst : t.Sorted (fun a b => a ≤ b) := hs.of_cons
    by_cases ha : a < x
    · simp [List.countP_cons, List.takeWhile_cons, ha, ih hst]
    · have hall : ∀ b ∈ t, ¬ b < x := by
        intro b hb
        have := List.rel_of_sorted_cons hs b hb
        omega
      have hz : t.countP (fun p => decide (p < x)) = 0 := by
        rw [List.countP_eq_zero]
        intro b hb
        simpa using hall b hb
      simp [List.countP_cons, List.takeWhile_cons, ha, hz]

/-- For non-decreasing pivots the scan stops at the number of pivots strictly below the
key. -/
theorem bucket_of_eq_countP (size : Nat) (pv : List Int) (x : Int)
    (hlen : pv.length = size - 1) (hs : pv.Sorted (fun a b => a ≤ b)) :
    bucket_of size pv x = pv.countP (fun p => decide (p < x)) := by
  unfold bucket_of
  rw [bucket_scan_eq_takeWhile size pv x hlen (size - 1) 0 (by omega), Nat.zero_add,
    List.drop_zero, countP_lt_eq_takeWhile x pv hs]

theorem sum_map_range (n : Nat) (f : Nat → Nat) :
    ((List.range n).map f).sum = ∑ i ∈ Finset.range n, f i := by
  induction n with
  | zero => rfl
  | succ k ih => rw [List.sum_range_succ, Finset.sum_range_succ, ih]

/-- The bucket sizes of a rank add up to the number of its keys, for any pivot array. -/
theorem bucket_sizes_sum (size : Nat) (hsize : 0 < size) (pv : List Int) (l : List Int) :
    (bucket_sizes size pv l).sum = l.length := by
  have h := congrArg Multiset.card
    (sum_filter_fibres size (bucket_of size pv) (fun x => bucket_of_lt size hsize pv x) l)
  rw [map_sum] at h
  simp only [Multiset.coe_card] at h
  unfold bucket_sizes
  rw [sum_map_range]
  rw [← h]
  apply Finset.sum_congr rfl
  intro b _
  exact List.countP_eq_length_filter _ _

theorem buckets_perm (size : Nat) (hsize : 0 < size) (pv : List Int) (l : List Int) :
    ((buckets size pv l).flatten).Perm l := by
  apply Multiset.coe_eq_coe.mp
  unfold buckets
  rw [coe_flatten_map_range]
  exact sum_filter_fibres size (bucket_of size pv) (fun x => bucket_of_lt size hsize pv x) l

theorem mem_buckets (size : Nat) (pv : List Int) (l : List Int) (b : Nat) (x : Int)
    (hx : x ∈ (buckets size pv l).getD b []) : b < size ∧ x ∈ l ∧ bucket_of size pv x = b := by
  unfold buckets at hx
  by_cases hb : b < size
  · simp only [List.getD_eq_getElem?_getD, List.getElem?_map, List.getElem?_range hb,
      Option.map_some', Option.getD_some, List.mem_filter, decide_eq_true_eq] at hx
    exact ⟨hb, hx.1, hx.2⟩
  · have : ((List.range size).map
        (fun b => l.filter (fun x => bucket_of size pv x = b)))[b]? = none := by
      apply List.getElem?_eq_none
      simp; omega
    simp [List.getD_eq_getElem?_getD, this] at hx

/-- A key equal to pivot `k` stops the scan at bucket `k` at the latest. -/
theorem bucket_scan_le_of_eq (size : Nat) (pv : List Int) (x : Int) (k : Nat)
    (hk : pv.getD k 0 = x) (fuel bucket : Nat) (hb : bucket ≤ k) :
    bucket_scan size pv x fuel bucket ≤ k := by
  induction fuel generalizing bucket with
  | zero => simpa [bucket_scan] using hb
  | succ n ih =>
    unfold bucket_scan
    split
    · rename_i hc
      have hne : bucket ≠ k := by
        intro e
        rw [e, hk] at hc
        exact absurd hc.2 (lt_irrefl x)
      exact ih (bucket + 1) (by omega)
    · exact hb

/-! ## The exchange envelope of `quicksort_sampling` -/

theorem displ_loop_length (counts : List Nat) (offset : Nat) :
    (displ_loop offset counts).length = counts.length := by
  induction counts generalizing offset with
  | nil => rfl
  | cons c cs ih => simp [displ_loop, ih]

/-- Consecutive segments touch: a displacement plus its count is the next displacement, and
the last one ends at the total. -/
theorem displ_loop_next (counts : List Nat) (i : Nat) (hi : i < counts.length) :
    (displ_loop 0 counts).getD i 0 + counts.getD i 0
      = if i + 1 < counts.length then (displ_loop 0 counts).getD (i + 1) 0 else counts.sum := by
  rw [displ_loop_getD counts 0 i hi, Nat.zero_add, List.getD_eq_getElem _ _ hi]
  have hsucc : (counts.take (i + 1)).sum = (counts.take i).sum + counts[i] := by
    rw [List.take_succ, List.sum_append, List.getElem?_eq_getElem hi]
    simp
  split
  · rename_i h
    rw [displ_loop_getD counts 0 (i + 1) h, Nat.zero_add, hsucc]
  · rename_i h
    have : i + 1 = counts.length := by omega
    rw [← hsucc, this, List.take_length]

theorem send_buffer_length (size : Nat) (pv : List Int) (l : List Int) :
    (send_buffer size pv l).length = total_send size pv l := by
  unfold send_buffer total_send
  rw [List.length_flatten, bucket_sizes_eq]

theorem segment_send_buffer_bucket (size : Nat) (pv : List Int) (l : List Int) (i : Nat)
    (hi : i < size) :
    segment (send_buffer size pv l) ((send_displ size pv l).getD i 0)
      ((bucket_sizes size pv l).getD i 0) = (buckets size pv l).getD i [] := by
  rw [segment_send_buffer size pv l i hi]
  simp [buckets, List.getD_eq_getElem?_getD, hi]

theorem segment_length_sent (size : Nat) (pv : List Int) (l : List Int) (j : Nat)
    (hj : j < size) :
    (segment (send_buffer size pv l) ((send_displ size pv l).getD j 0)
      ((bucket_sizes size pv l).getD j 0)).length = (bucket_sizes size pv l).getD j 0 := by
  rw [segment_send_buffer size pv l j hj]
  simp [bucket_sizes, List.getD_eq_getElem?_getD, hj, List.countP_eq_length_filter]

theorem recv_counts_eq (size : Nat) (pv : List Int) (sl : Nat → List Int) (j : Nat)
    (hj : j < size) :
    recv_counts size pv sl j
      = ((List.range size).map (fun i =>
          segment (send_buffer size pv (sl i)) ((send_displ size pv (sl i)).getD j 0)
            ((bucket_sizes size pv (sl i)).getD j 0))).map List.length := by
  unfold recv_counts
  rw [List.map_map]
  apply List.map_congr_left
  intro i _
  exact (segment_length_sent size pv (sl i) j hj).symm

theorem recv_buffer_length (size : Nat) (pv : List Int) (sl : Nat → List Int) (j : Nat)
    (hj : j < size) : (recv_buffer size pv sl j).length = total_recv size pv sl j := by
  unfold total_recv
  rw [recv_counts_eq size pv sl j hj]
  unfold recv_buffer
  rw [List.length_flatten]

/-- The cells of `recv_buffer` at `recv_displ[i]`, `recv_counts[i]` of them, are the segment
rank `i` sent. -/
theorem segment_recv_buffer (size : Nat) (pv : List Int) (sl : Nat → List Int) (i j : Nat)
    (hi : i < size) (hj : j < size) :
    segment (recv_buffer size pv sl j) ((recv_displ size pv sl j).getD i 0)
      ((recv_counts size pv sl j).getD i 0)
      = segment (send_buffer size pv (sl i)) ((send_displ size pv (sl i)).getD j 0)
          ((bucket_sizes size pv (sl i)).getD j 0) := by
  have hlen : i < ((List.range size).map (fun i =>
      segment (send_buffer size pv (sl i)) ((send_displ size pv (sl i)).getD j 0)
        ((bucket_sizes size pv (sl i)).getD j 0))).length := by simpa using hi
  unfold recv_displ
  rw [recv_counts_eq size pv sl j hj, displ_loop_getD _ _ _ (by simpa using hi), Nat.zero_add]
  unfold recv_buffer
  rw [segment_flatten _ _ hlen]
  simp [List.getD_eq_getElem?_getD, hi]

/-! ## The median of a sorted sample array -/

theorem le_countP_of_sorted (S : List Int) (hs : S.Sorted (fun a b => a ≤ b)) (m : Nat)
    (hm : m < S.length) :
    m + 1 ≤ S.countP (fun s => decide (s ≤ S.getD m 0)) ∧
    S.length - m ≤ S.countP (fun s => decide (S.getD m 0 ≤ s)) := by
  rw [List.getD_eq_getElem _ _ hm]
  have hp := List.pairwise_iff_getElem.mp hs
  constructor
  · have h1 : (S.take (m + 1)).countP (fun s => decide (s ≤ S[m])) = (S.take (m + 1)).length := by
      rw [List.countP_eq_length]
      intro a ha
      obtain ⟨i, hi, rfl⟩ := List.getElem_of_mem ha
      rw [List.length_take] at hi
      rw [List.getElem_take, decide_eq_true_eq]
      by_cases him : i = m
      · subst him; exact le_refl _
      · exact hp i m (by omega) hm (by omega)
    have h2 : S.countP (fun s => decide (s ≤ S[m]))
        = (S.take (m + 1)).countP (fun s => decide (s ≤ S[m]))
          + (S.drop (m + 1)).countP (fun s => decide (s ≤ S[m])) := by
      rw [← List.countP_append, List.take_append_drop]
    rw [h2, h1, List.length_take]
    omega
  · have h1 : (S.drop m).countP (fun s => decide (S[m] ≤ s)) = (S.drop m).length := by
      rw [List.countP_eq_length]
      intro a ha
      obtain ⟨i, hi, rfl⟩ := List.getElem_of_mem ha
      rw [List.length_drop] at hi
      rw [List.getElem_drop, decide_eq_true_eq]
      by_cases hi0 : i = 0
      · subst hi0; exact le_refl _
      · exact hp m (m + i) hm (by omega) (by omega)
    have h2 : S.countP (fun s => decide (S[m] ≤ s))
        = (S.take m).countP (fun s => decide (S[m] ≤ s))
          + (S.drop m).countP (fun s => decide (S[m] ≤ s)) := by
      rw [← List.countP_append, List.take_append_drop]
    rw [h2, h1, List.length_drop]
    omega

/-- The list of the ranks' samples that the gather of a round delivers to rank 0. -/
theorem round_samples_length (size : Nat) (bufs : Nat → List Int) :
    ((List.range size).map (fun r => local_sample (bufs r))).length = size := by
  simp

/-- On samples whose differences fit 32 bits the pivot of a round is entry `size / 2` of
the sorted samples and a median of them. -/
theorem round_pivot_median_of_keysSafe (size : Nat) (hsize : 0 < size) (bufs : Nat → List Int)
    (hsafe : KeysSafe ((List.range size).map (fun r => local_sample (bufs r)))) :
    round_pivot size bufs
        = (sorted_keys ((List.range size).map (fun r => local_sample (bufs r)))).getD
            (size / 2) 0 ∧
    size / 2 ≤ ((List.range size).map (fun r => local_sample (bufs r))).countP
        (fun s => decide (s ≤ round_pivot size bufs)) ∧
    size - size / 2 ≤ ((List.range size).map (fun r => local_sample (bufs r))).countP
        (fun s => decide (round_pivot size bufs ≤ s)) := by
  have hperm := qsort_perm compare ((List.range size).map (fun r => local_sample (bufs r)))
  have hs := qsort_sorted _ hsafe
  have hl : (qsort compare ((List.range size).map (fun r => local_sample (bufs r)))).length
      = size := by rw [hperm.length_eq]; simp
  have hm : size / 2 < (qsort compare
      ((List.range size).map (fun r => local_sample (bufs r)))).length := by
    rw [hl]; exact Nat.div_lt_self hsize (by norm_num)
  obtain ⟨h1, h2⟩ := le_countP_of_sorted _ hs (size / 2) hm
  refine ⟨?_, ?_, ?_⟩
  · unfold round_pivot
    rw [qsort_compare_eq _ hsafe]
  · unfold round_pivot
    rw [← hperm.countP_eq]
    omega
  · unfold round_pivot
    rw [← hperm.countP_eq]
    omega

/-! ## How much a rank can hold and receive in a round -/

theorem send_buf_length_le (d i : Nat) (p : Int) (r : Nat) (data : List Int) :
    (send_buf d i p r data).length ≤ data.length := by
  unfold send_buf small_arr larger_arr
  split <;> exact List.length_filter_le _ _

theorem kept_length_le (d i : Nat) (p : Int) (r : Nat) (data : List Int) :
    (kept d i p r data).length ≤ data.length := by
  unfold kept small_arr larger_arr
  split <;> exact List.length_filter_le _ _

/-- After `k` rounds a rank holds at most `2 ^ k` times what a rank started with. -/
theorem hypercube_rounds_length_le (d : Nat) (locals : List (List Int)) (ls : Nat)
    (h0 : ∀ r, (locals.getD r []).length ≤ ls) (k : Nat) (hk : k ≤ d) :
    ∀ r, r < 2 ^ d → ((hypercube_rounds d (2 ^ d) k locals).getD r []).length ≤ 2 ^ k * ls := by
  induction k with
  | zero =>
    intro r _
    simpa [hypercube_rounds] using h0 r
  | succ n ih =>
    intro r hr
    have hn : n < d := by omega
    simp only [hypercube_rounds]
    rw [hypercube_round_getD d _ n _ r hr, rebuild_eq, List.length_append]
    have h1 := kept_length_le d n
      (round_pivot (2 ^ d) (fun q => (hypercube_rounds d (2 ^ d) n locals).getD q [])) r
      ((hypercube_rounds d (2 ^ d) n locals).getD r [])
    have h2 := send_buf_length_le d n
      (round_pivot (2 ^ d) (fun q => (hypercube_rounds d (2 ^ d) n locals).getD q []))
      (neighbour d r n) ((hypercube_rounds d (2 ^ d) n locals).getD (neighbour d r n) [])
    have h3 := ih (by omega) r hr
    have h4 := ih (by omega) (neighbour d r n) (neighbour_lt d r n hn hr)
    have e : 2 ^ (n + 1) * ls = 2 ^ n * ls + 2 ^ n * ls := by rw [pow_succ]; ring
    omega

theorem scatter_getD_length_le (size : Nat) (input : List Int) (r : Nat) :
    ((scatter size input).getD r []).length ≤ input.length / size := by
  unfold scatter
  by_cases hr : r < size
  · simp only [List.getD_eq_getElem?_getD, List.getElem?_map, List.getElem?_range hr,
      Option.map_some', Option.getD_some, List.length_take]
    exact Nat.min_le_left _ _
  · have : ((List.range size).map (fun r =>
        (input.drop (r * (input.length / size))).take (input.length / size)))[r]? = none := by
      apply List.getElem?_eq_none
      simp; omega
    simp [List.getD_eq_getElem?_getD, this]

/-- In round `i` a rank receives at most `2 ^ i` times the initial local size. -/
theorem recv_size_le (d : Nat) (input : List Int) (i : Nat) (hi : i < d) (r : Nat)
    (hr : r < 2 ^ d) :
    recv_size d (2 ^ d) i (hypercube_rounds d (2 ^ d) i (scatter (2 ^ d) input)) r
      ≤ 2 ^ i * (input.length / 2 ^ d) := by
  unfold recv_size
  have h1 := send_buf_length_le d i
    (round_pivot (2 ^ d)
      (fun q => (hypercube_rounds d (2 ^ d) i (scatter (2 ^ d) input)).getD q []))
    (neighbour d r i)
    ((hypercube_rounds d (2 ^ d) i (scatter (2 ^ d) input)).getD (neighbour d r i) [])
  have h2 := hypercube_rounds_length_le d (scatter (2 ^ d) input) (input.length / 2 ^ d)
    (scatter_getD_length_le _ input) i (by omega) (neighbour d r i) (neighbour_lt d r i hi hr)
  omega

/-- The first two rounds fit the receive buffer; in particular every round does on a cube
of dimension at most 2. -/
theorem recv_fits_first_two_rounds (d : Nat) (input : List Int) (i : Nat) (hi : i < d)
    (hi2 : i < 2) (r : Nat) (hr : r < 2 ^ d) :
    recv_size d (2 ^ d) i (hypercube_rounds d (2 ^ d) i (scatter (2 ^ d) input)) r
      ≤ recv_capacity (input.length / 2 ^ d) := by
  have h := recv_size_le d input i hi r hr
  unfold recv_capacity
  have hp : 2 ^ i ≤ 2 := by
    interval_cases i <;> simp
  have := Nat.mul_le_mul_right (input.length / 2 ^ d) hp
  omega

/-! ## One rank -/

theorem range_one_eq : List.range 1 = [0] := rfl

theorem scatter_one (input : List Int) : scatter 1 input = [input] := by
  simp [scatter, range_one_eq]

theorem pivots_one (gathered : List Int) : pivots 1 gathered = [] := by
  simp [pivots]

theorem bucket_of_one (pv : List Int) (x : Int) : bucket_of 1 pv x = 0 := by
  simp [bucket_of, bucket_scan]

/-- On one rank `quicksort_sampling` is the local sort followed by the final sort. -/
theorem quicksort_sampling_one (u : Unspec) (input : List Int) :
    quicksort_sampling u 1 (scatter 1 input) = [qsort compare (qsort compare input)] := by
  rw [scatter_one]
  unfold quicksort_sampling
  simp only [range_one_eq, List.map_cons, List.map_nil]
  rw [recv_buffer_eq 1 _ _ 0 (by decide)]
  simp [bucket_of_one, range_one_eq]

/-- On one rank `hypercube_quicksort` runs no round and is the final sort. -/
theorem hypercube_quicksort_one (input : List Int) :
    hypercube_rounds 0 1 0 (scatter 1 input) = [input] ∧
    hypercube_quicksort 0 1 (scatter 1 input) = [qsort compare input] := by
  rw [scatter_one]
  simp [hypercube_quicksort, hypercube_rounds, range_one_eq]

theorem sorted_keys_sorted_keys (l : List Int) : sorted_keys (sorted_keys l) = sorted_keys l := by
  unfold sorted_keys
  exact List.Sorted.insertionSort_eq (List.sorted_insertionSort _ l)

/-- On one rank and keys whose differences fit 32 bits both sorts return the sorted input. -/
theorem single_rank_sorts_of_keysSafe (u : Unspec) (input : List Int) (hsafe : KeysSafe input) :
    quicksort_sampling u 1 (scatter 1 input) = [sorted_keys input] ∧
    hypercube_quicksort 0 1 (scatter 1 input) = [sorted_keys input] := by
  have h1 : qsort compare input = sorted_keys input := qsort_compare_eq input hsafe
  have hsafe' : KeysSafe (sorted_keys input) := by
    apply keysSafe_of_subset _ input _ hsafe
    intro x hx
    exact (List.mem_insertionSort _).mp hx
  constructor
  · rw [quicksort_sampling_one, h1, qsort_compare_eq _ hsafe', sorted_keys_sorted_keys]
  · rw [(hypercube_quicksort_one input).2, h1]

/-! ## The sample subscript and the comparator -/

/-- With three ranks or more and a local size that is a multiple of the rank count, the
sampling loop's read for `i = 1` is at `n_local`, one past the last key. -/
theorem sample_index_one_of_dvd (size n_local : Nat)
    (hdvd : n_local % size = 0) : sample_index 1 n_local size = n_local := by
  unfold sample_index
  rw [Nat.one_mul]
  exact Nat.div_mul_cancel (Nat.dvd_of_mod_eq_zero hdvd)

/-- The first read of the sampling loop is at subscript 0. -/
theorem sample_index_zero (size n_local : Nat) : sample_index 0 n_local size = 0 := by
  simp [sample_index]

/-- Where the subtraction stays in range, `compare` is a three-way comparison. -/
theorem compare_three_way_of_range (a b : Int)
    (h : -2147483648 ≤ a - b ∧ a - b ≤ 2147483647) :
    (compare a b < 0 ↔ a < b) ∧ (compare a b = 0 ↔ a = b) ∧ (compare a b > 0 ↔ a > b) := by
  unfold compare
  rw [wrap32_of_range _ h]
  omega

/-- On 32-bit keys `compare` returns zero exactly for equal keys, overflow or not. -/
theorem compare_eq_zero_iff (a b : Int) (ha : -2147483648 ≤ a ∧ a ≤ 2147483647)
    (hb : -2147483648 ≤ b ∧ b ≤ 2147483647) : compare a b = 0 ↔ a = b := by
  unfold compare wrap32
  omega

/-! ## The hypercube loop with the receive buffer's allocation -/

/-- A state the checked loop reaches is the state of the data movement. -/
theorem hypercube_rounds_checked_eq (d size : Nat) (locals : List (List Int)) (k : Nat)
    (s : List (List Int)) (h : hypercube_rounds_checked d size locals k = some s) :
    s = hypercube_rounds d size k locals := by
  induction k generalizing s with
  | zero =>
    simp only [hypercube_rounds_checked, Option.some.injEq] at h
    simp [hypercube_rounds, h]
  | succ n ih =>
    simp only [hypercube_rounds_checked] at h
    cases hn : hypercube_rounds_checked d size locals n with
    | none => rw [hn] at h; simp at h
    | some bufs =>
      rw [hn] at h
      simp only at h
      split at h
      · simp only [Option.some.injEq] at h
        rw [← h, ih bufs hn]
        rfl
      · simp at h

/-- The checked loop reaches round `k` exactly when every earlier round fits. -/
theorem hypercube_rounds_checked_of_fits (d size : Nat) (locals : List (List Int)) (k : Nat)
    (hfit : ∀ i, i < k → round_fits d size i locals (hypercube_rounds d size i locals) = true) :
    hypercube_rounds_checked d size locals k = some (hypercube_rounds d size k locals) := by
  induction k with
  | zero => rfl
  | succ n ih =>
    simp only [hypercube_rounds_checked]
    rw [ih (fun i hi => hfit i (by omega))]
    simp only [hfit n (by omega), if_true]
    rfl

/-- Once a round does not fit, the checked loop has no later state. -/
theorem hypercube_rounds_checked_none (d size : Nat) (locals : List (List Int)) (i k : Nat)
    (hik : i < k)
    (hfit : round_fits d size i locals (hypercube_rounds d size i locals) = false) :
    hypercube_rounds_checked d size locals k = none := by
  induction k with
  | zero => omega
  | succ n ih =>
    simp only [hypercube_rounds_checked]
    cases hn : hypercube_rounds_checked d size locals n with
    | none => rfl
    | some bufs =>
      simp only
      by_cases hin : i = n
      · subst hin
        rw [hypercube_rounds_checked_eq d size locals i bufs hn, hfit]
        simp
      · rw [ih (by omega)] at hn
        simp at hn

theorem scatter_getD_length (size : Nat) (input : List Int) (hdiv : input.length % size = 0)
    (r : Nat) (hr : r < size) :
    ((scatter size input).getD r []).length = input.length / size := by
  unfold scatter
  simp only [List.getD_eq_getElem?_getD, List.getElem?_map, List.getElem?_range hr,
    Option.map_some', Option.getD_some, List.length_take, List.length_drop]
  have h := Nat.div_add_mod input.length size
  rw [hdiv, Nat.add_zero] at h
  have h1 : (r + 1) * (input.length / size) ≤ size * (input.length / size) :=
    Nat.mul_le_mul_right _ (by omega)
  have h2 : (r + 1) * (input.length / size) = r * (input.length / size) + input.length / size := by
    ring
  generalize input.length / size = ls at *
  generalize r * ls = a at *
  generalize size * ls = b at *
  omega

/-- The rounds `i = 0` and `i = 1` fit the receive buffers on every valid input. -/
theorem round_fits_first_two (d : Nat) (input : List Int) (hdiv : input.length % 2 ^ d = 0)
    (i : Nat) (hi : i < d) (hi2 : i < 2) :
    round_fits d (2 ^ d) i (scatter (2 ^ d) input)
      (hypercube_rounds d (2 ^ d) i (scatter (2 ^ d) input)) = true := by
  unfold round_fits
  rw [List.all_eq_true]
  intro r hr
  have hr' : r < 2 ^ d := List.mem_range.mp hr
  rw [decide_eq_true_eq, scatter_getD_length _ input hdiv r hr']
  exact recv_fits_first_two_rounds d input i hi hi2 r hr'

/-- On a cube of dimension at most 2 every receive fits: the checked run is the data
movement. -/
theorem hypercube_checked_of_le_two (d : Nat) (hd : d ≤ 2) (input : List Int)
    (hdiv : input.length % 2 ^ d = 0) :
    (∀ k, k ≤ d → hypercube_rounds_checked d (2 ^ d) (scatter (2 ^ d) input) k
      = some (hypercube_rounds d (2 ^ d) k (scatter (2 ^ d) input))) ∧
    hypercube_quicksort_checked d (2 ^ d) (scatter (2 ^ d) input)
      = some (hypercube_quicksort d (2 ^ d) (scatter (2 ^ d) input)) := by
  have hk : ∀ k, k ≤ d → hypercube_rounds_checked d (2 ^ d) (scatter (2 ^ d) input) k
      = some (hypercube_rounds d (2 ^ d) k (scatter (2 ^ d) input)) := by
    intro k hk
    apply hypercube_rounds_checked_of_fits
    intro i hi
    exact round_fits_first_two d input hdiv i (by omega) (by omega)
  refine ⟨hk, ?_⟩
  unfold hypercube_quicksort_checked hypercube_quicksort
  rw [hk d (Nat.le_refl d)]
  rfl

/-- Permutation for the hypercube sort: whenever the run keeps every receive inside its
buffer, the union of the final buffers is the input. -/
theorem hrbs_checked_permutation (d : Nat) (input : List Int) (hdiv : input.length % 2 ^ d = 0)
    (final : List (List Int))
    (h : hypercube_quicksort_checked d (2 ^ d) (scatter (2 ^ d) input) = some final) :
    multiset_union final = Multiset.ofList input := by
  unfold hypercube_quicksort_checked at h
  cases hs : hypercube_rounds_checked d (2 ^ d) (scatter (2 ^ d) input) d with
  | none => rw [hs] at h; simp at h
  | some bufs =>
    rw [hs] at h
    simp only [Option.map_some', Option.some.injEq] at h
    have hb := hypercube_rounds_checked_eq d _ _ d bufs hs
    have hq : final = hypercube_quicksort d (2 ^ d) (scatter (2 ^ d) input) := by
      rw [← h, hb]
      rfl
    rw [hq, multiset_union_eq]
    exact Multiset.coe_eq_coe.mpr (hrbs_perm d input hdiv)

/-- Conservation for the hypercube sort: every state the checked loop reaches holds N keys
in all. -/
theorem hrbs_checked_conservation (d : Nat) (input : List Int) (hdiv : input.length % 2 ^ d = 0)
    (k : Nat) (hk : k ≤ d) (s : List (List Int))
    (h : hypercube_rounds_checked d (2 ^ d) (scatter (2 ^ d) input) k = some s) :
    total_size s = input.length := by
  rw [hypercube_rounds_checked_eq d _ _ k s h, total_size_eq,
    hypercube_rounds_multiset d k hk _ (scatter_length _ input), scatter_flatten _ input hdiv]
  rfl

/-- Range halving for the hypercube sort: in every state the checked loop reaches after
round `k`, a rank with bit 0 on axis `k` holds keys `<=` the pivot of round `k` only, a rank
with bit 1 keys above it only. -/
theorem hrbs_checked_range (d : Nat) (input : List Int) (k m : Nat) (hkm : k < m) (hmd : m ≤ d)
    (s : List (List Int))
    (h : hypercube_rounds_checked d (2 ^ d) (scatter (2 ^ d) input) m = some s)
    (r : Nat) (hr : r < 2 ^ d) (x : Int) (hx : x ∈ s.getD r []) :
    (coord d r k = 0 → x ≤ pivot_of_round d (2 ^ d) k (scatter (2 ^ d) input)) ∧
    (coord d r k = 1 → pivot_of_round d (2 ^ d) k (scatter (2 ^ d) input) < x) := by
  rw [hypercube_rounds_checked_eq d _ _ m s h] at hx
  have hiff := hypercube_rounds_range d (scatter (2 ^ d) input) m hmd k hkm r hr x hx
  constructor
  · intro h0
    exact hiff.mpr h0
  · intro h1
    have : ¬ x ≤ pivot_of_round d (2 ^ d) k (scatter (2 ^ d) input) := by
      intro hle
      have := hiff.mp hle
      omega
    omega

/-- Permutation for the regular-sampling sort: on every `size >= 1` dividing N, and whatever
the unassigned cells hold, the union of the final buffers is the input. -/
theorem rsds_permutation (u : Unspec) (size : Nat) (hsize : 1 ≤ size) (input : List Int)
    (hdiv : input.length % size = 0) :
    multiset_union (quicksort_sampling u size (scatter size input)) = Multiset.ofList input := by
  rw [multiset_union_eq]
  exact Multiset.coe_eq_coe.mpr (rsds_perm u size hsize input hdiv)

/-! ## The claims -/

/-- C1. End-to-end result of the regular-sampling sort.  On one rank with the keys
`-2, 2147483647` the subtraction in `compare` leaves the 32-bit range in both directions, the
library sort is told that 2147483647 goes first, and the buffers read in rank order are
`[2147483647, -2]`, which is not the sorted input `[-2, 2147483647]`.  (On keys whose
differences fit 32 bits the result is the sorted input: `rsds_sorts_of_keysSafe`.) -/
theorem C1_rsds_wide_keys_not_sorted :
    (∀ u : Unspec,
      (quicksort_sampling u 1 (scatter 1 [-2, 2147483647])).flatten = [2147483647, -2]) ∧
    sorted_keys [-2, 2147483647] = [-2, 2147483647] ∧
    compare 2147483647 (-2) < 0 ∧ compare (-2) 2147483647 > 0 :=
  ⟨fun _ => rfl, by decide, by decide, by decide⟩

/-- C2. Global order of the regular-sampling sort: for a valid pair (N, P), any input and any
contents of the unassigned cells, every key a rank ends with is at most every key a
higher rank ends with. -/
theorem C2_rsds_global_order (u : Unspec) (size : Nat) (input : List Int) (_hsize : 1 ≤ size)
    (_hdiv : input.length % size = 0) (i j : Nat) (hij : i < j) (x y : Int)
    (hx : x ∈ (quicksort_sampling u size (scatter size input)).getD i [])
    (hy : y ∈ (quicksort_sampling u size (scatter size input)).getD j []) : x ≤ y :=
  rsds_order_across u size (scatter size input) i j hij x y hx hy

/-- C2 at the documented run on four ranks: key 1 of rank 1 against key 4 of rank 2. -/
theorem C2_rsds_global_order_witness :
    (1 : Int) ∈ (quicksort_sampling ⟨fun _ _ => 0, fun _ => 0⟩ 4
        (scatter 4 [5, 2, 8, 1, 9, 3, 7, 4, 6, 10, 12, 11])).getD 1 [] ∧
    (4 : Int) ∈ (quicksort_sampling ⟨fun _ _ => 0, fun _ => 0⟩ 4
        (scatter 4 [5, 2, 8, 1, 9, 3, 7, 4, 6, 10, 12, 11])).getD 2 [] ∧
    (1 : Int) ≤ 4 :=
  ⟨by decide, by decide,
    C2_rsds_global_order ⟨fun _ _ => 0, fun _ => 0⟩ 4 [5, 2, 8, 1, 9, 3, 7, 4, 6, 10, 12, 11]
      (by decide) (by decide) 1 2 (by decide) 1 4 (by decide) (by decide)⟩

/-- C3. Permutation.  It holds for the regular-sampling sort (`rsds_permutation`) and for
every run of the hypercube sort that keeps its receives inside `recv_buf`
(`hrbs_checked_permutation`; always so on a cube of dimension at most 2,
`hypercube_checked_of_le_two`).  On eight ranks with the 32 keys of `overrun_keys`, a valid
input, rank 3 is handed 14 ints in the round with `i = 2` and its `recv_buf` has room for
8: the run has no final buffers to take the union of. -/
theorem C3_hypercube_overrun_no_final_buffers :
    overrun_keys.length % 8 = 0 ∧
    recv_size 3 8 2 (hypercube_rounds 3 8 2 (scatter 8 overrun_keys)) 3 = 14 ∧
    recv_capacity (((scatter 8 overrun_keys).getD 3 []).length) = 8 ∧
    hypercube_quicksort_checked 3 8 (scatter 8 overrun_keys) = none := by
  refine ⟨by decide, ?_, by decide, ?_⟩ <;> decide

/-- C4. Conservation.  Every state the loop reaches with its receives inside `recv_buf`
holds N keys in all (`hrbs_checked_conservation`).  On eight ranks with the 32 keys of
`overrun_keys` the states after rounds 0 and 1 hold 32 keys, the round with `i = 2` does not
fit the receive buffers, and there is no state after it whose sizes could be added up. -/
theorem C4_hypercube_overrun_no_round_state :
    (hypercube_rounds_checked 3 8 (scatter 8 overrun_keys) 1).map total_size = some 32 ∧
    (hypercube_rounds_checked 3 8 (scatter 8 overrun_keys) 2).map total_size = some 32 ∧
    round_fits 3 8 2 (scatter 8 overrun_keys)
      (hypercube_rounds 3 8 2 (scatter 8 overrun_keys)) = false ∧
    hypercube_rounds_checked 3 8 (scatter 8 overrun_keys) 3 = none := by
  refine ⟨?_, ?_, ?_, ?_⟩ <;> decide

/-- C5. Local order.  With the keys `-2, 2147483647` on one rank, the final `qsort` with
`compare` leaves the buffer as `[2147483647, -2]` in both programs: not in non-decreasing
order.  (On keys whose differences fit 32 bits every final buffer is sorted:
`rsds_local_order_of_keysSafe`, `hrbs_local_order_of_keysSafe`.) -/
theorem C5_final_buffer_not_sorted :
    (∀ u : Unspec,
      (quicksort_sampling u 1 (scatter 1 [-2, 2147483647])).getD 0 [] = [2147483647, -2]) ∧
    (hypercube_quicksort 0 1 (scatter 1 [-2, 2147483647])).getD 0 [] = [2147483647, -2] ∧
    ¬ List.Sorted (fun a b : Int => a ≤ b) [2147483647, -2] :=
  ⟨fun _ => rfl, by decide, by decide⟩

/-- C6 (as amended). On four ranks the hypercube sort does order the ranks: for every input
whose length is a multiple of 4 and all ranks `i < j`, every key rank `i` ends with is
strictly below every key rank `j` ends with. -/
theorem C6_hrbs_global_order_four (input : List Int) (_hdiv : input.length % 4 = 0)
    (i j : Nat) (hij : i < j) (x y : Int)
    (hx : x ∈ (hypercube_quicksort 2 4 (scatter 4 input)).getD i [])
    (hy : y ∈ (hypercube_quicksort 2 4 (scatter 4 input)).getD j []) : x < y :=
  hrbs_order_across 2 (scatter 4 input) i j hij x y hx hy

/-- C6 (as amended) at the documented twelve keys: key 7 of rank 0 against key 8 of rank 2. -/
theorem C6_hrbs_global_order_four_witness :
    (7 : Int) ∈ (hypercube_quicksort 2 4
        (scatter 4 [5, 2, 8, 1, 9, 3, 7, 4, 6, 10, 12, 11])).getD 0 [] ∧
    (8 : Int) ∈ (hypercube_quicksort 2 4
        (scatter 4 [5, 2, 8, 1, 9, 3, 7, 4, 6, 10, 12, 11])).getD 2 [] ∧
    (7 : Int) < 8 :=
  ⟨by decide, by decide,
    C6_hrbs_global_order_four [5, 2, 8, 1, 9, 3, 7, 4, 6, 10, 12, 11] (by decide) 0 2
      (by decide) 7 8 (by decide) (by decide)⟩

/-- C6 (as stated) fails: on four ranks no valid input and no pair of ranks `i < j` has a key
of rank `i` above a key of rank `j` in the final state. -/
theorem C6_no_order_violation_on_four :
    ¬ ∃ (input : List Int) (i j : Nat) (x y : Int),
        input.length % 4 = 0 ∧ i < j ∧
        x ∈ (hypercube_quicksort 2 4 (scatter 4 input)).getD i [] ∧
        y ∈ (hypercube_quicksort 2 4 (scatter 4 input)).getD j [] ∧ x > y := by
  rintro ⟨input, i, j, x, y, _, hij, hx, hy, hgt⟩
  have := hrbs_order_across 2 (scatter 4 input) i j hij x y hx hy
  omega

/-- C7. Validation in `main` of `psrs.c`: the exit status is 1 exactly when `size` does not
divide the number of keys, in that case nothing was scattered or sorted, and the status is
the same for any two runs with the same number of keys and ranks. -/
theorem C7_psrs_validation (u : Unspec) (size : Nat) (_hsize : 1 ≤ size) (args : List Int) :
    ((psrs_main u size args).status = 1 ↔ args.length % size ≠ 0) ∧
    (args.length % size ≠ 0 → (psrs_main u size args).sorted_data = none) ∧
    (args.length % size = 0 →
      (psrs_main u size args).status = 0 ∧
      (psrs_main u size args).sorted_data
        = some (quicksort_sampling u size (scatter size args))) ∧
    (∀ (u' : Unspec) (args' : List Int), args'.length = args.length →
      (psrs_main u' size args').status = (psrs_main u size args).status) := by
  refine ⟨?_, ?_, ?_, ?_⟩
  · unfold psrs_main
    split <;> simp_all
  · intro h
    simp [psrs_main, h]
  · intro h
    simp [psrs_main, h]
  · intro u' args' hlen
    unfold psrs_main
    rw [hlen]
    split <;> rfl

/-- C7 at ten keys on three ranks: rejected with status 1, nothing sorted. -/
theorem C7_psrs_validation_witness :
    (psrs_main ⟨fun _ _ => 0, fun _ => 0⟩ 3 [1, 2, 3, 4, 5, 6, 7, 8, 9, 10]).status = 1 ∧
    (psrs_main ⟨fun _ _ => 0, fun _ => 0⟩ 3 [1, 2, 3, 4, 5, 6, 7, 8, 9, 10]).sorted_data
      = none :=
  ⟨(C7_psrs_validation ⟨fun _ _ => 0, fun _ => 0⟩ 3 (by decide)
      [1, 2, 3, 4, 5, 6, 7, 8, 9, 10]).1.mpr (by decide),
    (C7_psrs_validation ⟨fun _ _ => 0, fun _ => 0⟩ 3 (by decide)
      [1, 2, 3, 4, 5, 6, 7, 8, 9, 10]).2.1 (by decide)⟩

/-- C9. Regular sampling.  The loop `for (i = 0; i < size - 1; i++)` assigns `size - 1` of the
`size` entries that the gather sends: the last entry is whatever the cell held.  On two ranks,
rank 0 holding `[3]`, the array sent is `[3, c]` for the cell content `c`, while the formula
for `i = 1` reads `local_data[0] = 3`; with `c = 99` the two differ. -/
theorem C9_last_sample_not_assigned :
    (∀ u : Unspec, sample u 2 0 [3] = [3, u.uninit 0]) ∧
    (∀ u : Unspec, (List.range 2).map (fun i => read_local u 0 [3] (sample_index i 1 2))
      = [3, 3]) ∧
    sample ⟨fun _ _ => 0, fun _ => 99⟩ 2 0 [3] ≠ [3, 3] :=
  ⟨fun _ => rfl, fun _ => rfl, by decide⟩

/-- C10. Pivot selection.  On three ranks holding `2147483647`, `2147483647`, `-2`, with the
unassigned sample cells holding `2147483647`, `-2`, `-2`, the gathered samples are five times
`2147483647` and four times `-2`; `compare` overflows on that pair, the library sort puts
`2147483647` first, and the pivots read at offsets 3 and 6 are `[2147483647, -2]`: a
decreasing sequence.  (The count and the offsets are as claimed: `pivots_length`,
`pivot_offset_lt`, `pivot_offset_strictMono`; on samples whose differences fit 32 bits the
pivots are non-decreasing: `pivots_sorted_of_keysSafe`.) -/
theorem C10_pivots_decreasing :
    all_samples ⟨fun _ _ => 0, fun r => if r = 0 then 2147483647 else -2⟩ 3
        (fun r => qsort compare ((scatter 3 [2147483647, 2147483647, -2]).getD r []))
      = [2147483647, 2147483647, 2147483647, 2147483647, 2147483647, -2, -2, -2, -2] ∧
    pivots 3 [2147483647, 2147483647, 2147483647, 2147483647, 2147483647, -2, -2, -2, -2]
      = [2147483647, -2] ∧
    ¬ List.Sorted (fun a b : Int => a ≤ b) [2147483647, -2] :=
  ⟨by decide, by decide, by decide⟩

/-- C11. Partitioner of the regular-sampling sort: for non-decreasing pivots (`size - 1` of
them) the scan puts a key in the bucket whose index is the number of pivots strictly below
it; every key of the local buffer lands in exactly one of the `size` buckets, and the bucket
sizes add up to `n_local`. -/
theorem C11_partitioner (size : Nat) (hsize : 1 ≤ size) (pv : List Int)
    (hlen : pv.length = size - 1) (hs : pv.Sorted (fun a b => a ≤ b))
    (local_data : List Int) :
    (∀ x, bucket_of size pv x = pv.countP (fun p => decide (p < x))) ∧
    (∀ x, bucket_of size pv x < size ∧
      ¬ (bucket_of size pv x < size - 1 ∧ x > pv.getD (bucket_of size pv x) 0)) ∧
    (∀ b x, x ∈ (buckets size pv local_data).getD b [] →
      b < size ∧ x ∈ local_data ∧ bucket_of size pv x = b) ∧
    ((buckets size pv local_data).flatten).Perm local_data ∧
    (bucket_sizes size pv local_data).length = size ∧
    (bucket_sizes size pv local_data).sum = local_data.length := by
  refine ⟨fun x => bucket_of_eq_countP size pv x hlen hs, fun x => ⟨bucket_of_lt size hsize pv x,
    bucket_scan_exit size pv x (size - 1) 0 (by omega)⟩, fun b x hx => mem_buckets size pv _ b x hx,
    buckets_perm size hsize pv local_data, ?_, bucket_sizes_sum size hsize pv local_data⟩
  simp [bucket_sizes]

/-- C11 at four ranks, pivots `[3, 6, 9]` and the local keys `[1, 3, 4, 6, 7, 12]`. -/
theorem C11_partitioner_witness :
    bucket_of 4 [3, 6, 9] 7 = [3, 6, 9].countP (fun p => decide (p < 7)) ∧
    (bucket_sizes 4 [3, 6, 9] [1, 3, 4, 6, 7, 12]).sum = 6 :=
  ⟨(C11_partitioner 4 (by decide) [3, 6, 9] (by decide) (by decide) [1, 3, 4, 6, 7, 12]).1 7,
    (C11_partitioner 4 (by decide) [3, 6, 9] (by decide) (by decide)
      [1, 3, 4, 6, 7, 12]).2.2.2.2.2⟩

/-- C12. Tie-break: a key equal to pivot `k` of the regular-sampling sort is put in a bucket
of index at most `k`; a key equal to the pivot of a hypercube round is put in `small_arr`
and not in `larger_arr`. -/
theorem C12_tie_break (size : Nat) (pv : List Int) (hlen : pv.length = size - 1) (k : Nat)
    (hk : k < pv.length) (x : Int) (hx : pv.getD k 0 = x) :
    bucket_of size pv x ≤ k ∧
    (∀ local_data : List Int, x ∈ local_data →
      ∃ b, b ≤ k ∧ x ∈ (buckets size pv local_data).getD b []) ∧
    (∀ (pivot : Int) (result_data : List Int), pivot ∈ result_data →
      pivot ∈ small_arr pivot result_data) ∧
    (∀ (pivot : Int) (result_data : List Int), pivot ∉ larger_arr pivot result_data) := by
  have hle : bucket_of size pv x ≤ k := bucket_scan_le_of_eq size pv x k hx (size - 1) 0 (by omega)
  refine ⟨hle, ?_, ?_, ?_⟩
  · intro local_data hmem
    refine ⟨bucket_of size pv x, hle, ?_⟩
    have hb : bucket_of size pv x < size := bucket_of_lt size (by omega) pv x
    simp only [buckets, List.getD_eq_getElem?_getD, List.getElem?_map, List.getElem?_range hb,
      Option.map_some', Option.getD_some, List.mem_filter, decide_eq_true_eq]
    exact ⟨hmem, trivial⟩
  · intro pivot result_data hmem
    simp [small_arr, hmem]
  · intro pivot result_data
    simp [larger_arr]

/-- C12 at four ranks, pivots `[3, 6, 9]` and the key 6, equal to pivot 1. -/
theorem C12_tie_break_witness :
    bucket_of 4 [3, 6, 9] 6 ≤ 1 ∧ (6 : Int) ∈ small_arr 6 [7, 6, 2] ∧
    (6 : Int) ∉ larger_arr 6 [7, 6, 2] :=
  ⟨(C12_tie_break 4 [3, 6, 9] (by decide) 1 (by decide) 6 (by decide)).1,
    (C12_tie_break 4 [3, 6, 9] (by decide) 1 (by decide) 6 (by decide)).2.2.1 6 [7, 6, 2]
      (by decide),
    (C12_tie_break 4 [3, 6, 9] (by decide) 1 (by decide) 6 (by decide)).2.2.2 6 [7, 6, 2]⟩

/-- C13. One rank.  Both programs reduce to the library sort with `compare` (no pivot, every
key in bucket 0, no round: `pivots_one`, `bucket_of_one`, `quicksort_sampling_one`,
`hypercube_quicksort_one`), and on the keys `-2, 2147483647` that sort returns
`[2147483647, -2]`, which is not the sorted input.  (On keys whose differences fit 32 bits
both return the sorted input: `single_rank_sorts_of_keysSafe`.) -/
theorem C13_single_rank_wide_keys :
    (∀ u : Unspec, quicksort_sampling u 1 (scatter 1 [-2, 2147483647]) = [[2147483647, -2]]) ∧
    hypercube_quicksort 0 1 (scatter 1 [-2, 2147483647]) = [[2147483647, -2]] ∧
    hypercube_rounds 0 1 0 (scatter 1 [-2, 2147483647]) = [[-2, 2147483647]] ∧
    [sorted_keys [-2, 2147483647]] ≠ [[2147483647, -2]] :=
  ⟨fun _ => rfl, by decide, by decide, by decide⟩

/-- C14. Receive buffer of the hypercube exchange.  On eight ranks with the keys
`1 2 3 6 4 7 5 8` (one key per rank, so `recv_buf` has room for 2 ints), rank 3 is sent 3
ints in the round with `i = 2`.  (The rounds `i = 0` and `i = 1` always fit:
`recv_fits_first_two_rounds`; in round `i` the count is at most `2 ^ i` times the local
size: `recv_size_le`.) -/
theorem C14_recv_exceeds_capacity :
    recv_size 3 8 2 (hypercube_rounds 3 8 2 (scatter 8 [1, 2, 3, 6, 4, 7, 5, 8])) 3 = 3 ∧
    recv_capacity ([1, 2, 3, 6, 4, 7, 5, 8].length / 8) = 2 ∧
    hypercube_rounds 3 8 2 (scatter 8 [1, 2, 3, 6, 4, 7, 5, 8])
      = [[1], [2], [3, 5, 4], [], [], [], [], [8, 6, 7]] ∧
    neighbour 3 3 2 = 2 :=
  ⟨by decide, by decide, by decide, by decide⟩

/-- C15. Range halving.  In every state the loop reaches with its receives inside
`recv_buf`, after round `k` a rank with bit 0 on axis `k` holds only keys `<=` the pivot of
that round and a rank with bit 1 only keys above it (`hrbs_checked_range`).  On eight ranks
with the 32 keys of `overrun_keys` round 0 has pivot 100 and the states after rounds 0 and 1
are as the claim says, but the round with `i = 2` overruns `recv_buf` of rank 3: there is no
state after it, up to termination, for the claim to speak of. -/
theorem C15_hypercube_overrun_no_later_state :
    pivot_of_round 3 8 0 (scatter 8 overrun_keys) = 100 ∧
    hypercube_rounds_checked 3 8 (scatter 8 overrun_keys) 2
      = some [[1, 1], [1, 1],
          [50, 50, 50, 100, 50, 50, 50, 50, 50, 50, 100, 50, 50, 50],
          [50, 50, 50, 100, 50, 50, 50, 50, 50, 50, 100, 50, 50, 50], [], [], [], []] ∧
    neighbour 3 3 2 = 2 ∧ coord 3 2 2 = 0 ∧
    pivot_of_round 3 8 2 (scatter 8 overrun_keys) = 1 ∧
    hypercube_rounds_checked 3 8 (scatter 8 overrun_keys) 3 = none := by
  refine ⟨?_, ?_, ?_, ?_, ?_, ?_⟩ <;> decide

/-- C16. Pivot of a hypercube round.  The sample of a rank is its first key, or 0 for an
empty buffer (`local_sample`), and the pivot is entry `size / 2` of the samples as `qsort`
with `compare` leaves them.  On four ranks holding `2147483646`, `2147483647`,
`-2147483648`, `-2147483647`, `compare` overflows, the pivot of round 0 is `-2147483648`;
entry 2 of the non-decreasing sort of the samples is `2147483646`, and only one sample is
`<=` the pivot where a median needs two.  (On samples whose differences fit 32 bits the
claim holds: `round_pivot_median_of_keysSafe`.) -/
theorem C16_pivot_not_median :
    (List.range 4).map (fun r => local_sample
        ((scatter 4 [2147483646, 2147483647, -2147483648, -2147483647]).getD r []))
      = [2147483646, 2147483647, -2147483648, -2147483647] ∧
    round_pivot 4
        (fun r => (scatter 4 [2147483646, 2147483647, -2147483648, -2147483647]).getD r [])
      = -2147483648 ∧
    (sorted_keys [2147483646, 2147483647, -2147483648, -2147483647]).getD (4 / 2) 0
      = 2147483646 ∧
    [2147483646, 2147483647, -2147483648, -2147483647].countP
        (fun s : Int => decide (s ≤ -2147483648)) = 1 :=
  ⟨by decide, by decide, by decide, by decide⟩

/-- C17. Exchange envelope of the regular-sampling sort: for any array of counts the
displacement loop gives the running sums, consecutive segments touch and the last ends at
the total; the send buffer has `total_send` cells and holds bucket `i` at
`send_displ[i]`; the receive buffer of rank `j` has `total_recv` cells and holds at
`recv_displ[i]` the `recv_counts[i]` cells rank `i` sent. -/
theorem C17_exchange_envelope (size : Nat) (pv : List Int) (sorted_locals : Nat → List Int)
    (i j : Nat) (hi : i < size) (hj : j < size) :
    (∀ (counts : List Nat) (n : Nat), n < counts.length →
      (displ_loop 0 counts).getD n 0 = (counts.take n).sum ∧
      (displ_loop 0 counts).getD n 0 + counts.getD n 0
        = if n + 1 < counts.length then (displ_loop 0 counts).getD (n + 1) 0
          else counts.sum) ∧
    (send_displ size pv (sorted_locals j)).getD i 0
      = ((bucket_sizes size pv (sorted_locals j)).take i).sum ∧
    (recv_displ size pv sorted_locals j).getD i 0
      = ((recv_counts size pv sorted_locals j).take i).sum ∧
    (send_buffer size pv (sorted_locals j)).length = total_send size pv (sorted_locals j) ∧
    segment (send_buffer size pv (sorted_locals j))
        ((send_displ size pv (sorted_locals j)).getD i 0)
        ((bucket_sizes size pv (sorted_locals j)).getD i 0)
      = (buckets size pv (sorted_locals j)).getD i [] ∧
    (recv_buffer size pv sorted_locals j).length = total_recv size pv sorted_locals j ∧
    (recv_counts size pv sorted_locals j).getD i 0
      = (bucket_sizes size pv (sorted_locals i)).getD j 0 ∧
    segment (recv_buffer size pv sorted_locals j)
        ((recv_displ size pv sorted_locals j).getD i 0)
        ((recv_counts size pv sorted_locals j).getD i 0)
      = (buckets size pv (sorted_locals i)).getD j [] := by
  refine ⟨?_, ?_, ?_, send_buffer_length size pv _, segment_send_buffer_bucket size pv _ i hi,
    recv_buffer_length size pv sorted_locals j hj, ?_, ?_⟩
  · intro counts n hn
    refine ⟨?_, displ_loop_next counts n hn⟩
    rw [displ_loop_getD counts 0 n hn, Nat.zero_add]
  · unfold send_displ
    rw [displ_loop_getD _ 0 i (by simpa [bucket_sizes] using hi), Nat.zero_add]
  · unfold recv_displ
    rw [displ_loop_getD _ 0 i (by simpa [recv_counts] using hi), Nat.zero_add]
  · simp [recv_counts, List.getD_eq_getElem?_getD, hi]
  · rw [segment_recv_buffer size pv sorted_locals i j hi hj,
      segment_send_buffer_bucket size pv _ j hj]

/-- C17 at two ranks with pivot `[4]`, rank 0 holding `[1, 5]` and rank 1 holding `[2, 3]`:
rank 0 receives `[1]` from itself at displacement 0 and `[2, 3]` from rank 1 at
displacement 1. -/
theorem C17_exchange_envelope_witness :
    (recv_displ 2 [4] (fun r => if r = 0 then [1, 5] else [2, 3]) 0).getD 1 0
      = ((recv_counts 2 [4] (fun r => if r = 0 then [1, 5] else [2, 3]) 0).take 1).sum ∧
    (recv_buffer 2 [4] (fun r => if r = 0 then [1, 5] else [2, 3]) 0).length
      = total_recv 2 [4] (fun r => if r = 0 then [1, 5] else [2, 3]) 0 :=
  ⟨(C17_exchange_envelope 2 [4] (fun r => if r = 0 then [1, 5] else [2, 3]) 1 0
      (by decide) (by decide)).2.2.1,
    (C17_exchange_envelope 2 [4] (fun r => if r = 0 then [1, 5] else [2, 3]) 1 0
      (by decide) (by decide)).2.2.2.2.2.1⟩

/-- C18. Subscripts of the sampling loop.  In the documented run (four ranks, twelve keys,
`n_local = 3`) the loop runs for `i = 0, 1, 2` and for `i = 2` reads `local_data[4]`, past
the three keys of the buffer.  (For three ranks or more and `n_local` a multiple of the rank
count the read for `i = 1` is at `n_local`: `sample_index_one_of_dvd`.) -/
theorem C18_sample_read_past_end :
    [5, 2, 8, 1, 9, 3, 7, 4, 6, 10, 12, 11].length % 4 = 0 ∧
    [5, 2, 8, 1, 9, 3, 7, 4, 6, 10, 12, 11].length / 4 = 3 ∧
    2 < 4 - 1 ∧ sample_index 2 3 4 = 4 ∧ ¬ sample_index 2 3 4 < 3 ∧
    (∀ u : Unspec, read_local u 0 [2, 5, 8] (sample_index 2 3 4) = u.beyond 0 4) :=
  ⟨by decide, by decide, by decide, by decide, by decide, fun _ => rfl⟩

/-- C19. The comparator.  For the 32-bit keys `a = 2147483647` and `b = -2` the subtraction
wraps: `compare a b` is `-2147483647`, negative although `a > b`, and `compare b a` is
`2147483647`, positive although `b < a`.  (Where the difference fits 32 bits the three-way
property holds: `compare_three_way_of_range`; zero is returned exactly for equal keys:
`compare_eq_zero_iff`.) -/
theorem C19_compare_wraps :
    compare 2147483647 (-2) = -2147483647 ∧ ¬ ((2147483647 : Int) < -2) ∧
    compare (-2) 2147483647 = 2147483647 ∧ ¬ ((-2 : Int) > 2147483647) :=
  ⟨by decide, by decide, by decide, by decide⟩

end PSort
